import Mathlib

/-!
Verification development for the block-sparse tensor engine in
`pyblock3/tensor.py`.

The Python source is shallowly embedded:

* a quantum label (the external `SZ` collaborator) is modelled as an integer
  particle number with `is_fermion = n % 2 == 1`;
* a dense `numpy` array is modelled as a row-major flat list of scalars
  together with its shape (`NDArray`);
* floating-point values are modelled exactly, by the elements of an arbitrary
  linearly ordered commutative ring `R` (theorems are stated for every such
  `R`, so in particular for `ℚ`; concrete evaluations instantiate `R := ℤ`);
* `np.tensordot`, block addition, matrix multiplication, transposition and
  row-stacking are implemented over the flat representation;
* a Python `dict` with insertion order is modelled as an association list;
* `np.sqrt` (used once, for the truncation error) is modelled by `Real.sqrt`
  applied to the exactly accumulated sum of squares.
-/

/-- The external quantum-label collaborator (`SZ` in pyblock3): an opaque
value supporting `+`, equality/hashing, and an `is_fermion` parity flag.
Modelled by its particle number `n : ℤ`; `is_fermion` is `n % 2 == 1`. -/
structure SZ where
  n : ℤ
  deriving DecidableEq

instance : Add SZ := ⟨fun a b => ⟨a.n + b.n⟩⟩

instance : Inhabited SZ := ⟨⟨0⟩⟩

instance : BEq SZ := ⟨fun a b => a.n == b.n⟩

instance : LawfulBEq SZ := ⟨by
  intro a b h
  cases a; cases b
  simpa [BEq.beq] using h,
  by intro a; simp [BEq.beq]⟩

/-- `SZ.is_fermion`: fermionic parity flag of a quantum label. -/
def SZ.is_fermion (q : SZ) : Bool := q.n % 2 == 1

/-- A dense numpy array over the scalar ring `R`: row-major flat data plus
its shape. -/
structure NDArray (R : Type) where
  shape : List ℕ
  data : List R
  deriving DecidableEq

/-- Flat (row-major) position of a multi-index in an array of the given
shape: `fold (acc * dim + i)`. -/
def flatIndex (shape idx : List ℕ) : ℕ :=
  (shape.zip idx).foldl (fun acc di => acc * di.1 + di.2) 0

/-- Entry of a dense array at a multi-index (0 outside the data). -/
def NDArray.at {R : Type} [LinearOrderedCommRing R] (a : NDArray R)
    (idx : List ℕ) : R :=
  a.data.getD (flatIndex a.shape idx) 0

/-- All multi-indices of a given shape, in row-major order. -/
def allIndices : List ℕ → List (List ℕ)
  | [] => [[]]
  | d :: ds => (List.range d).flatMap (fun i => (allIndices ds).map (i :: ·))

/-- Rebuild a full index of rank `rank` from the contracted-axis positions
`axes` (receiving the sub-index `cIdx`) and the remaining free positions
(receiving the sub-index `freeIdx`, in ascending position order). -/
def mergeIndex (rank : ℕ) (axes cIdx freeIdx : List ℕ) : List ℕ :=
  let freePos := (List.range rank).filter (fun p => !(axes.contains p))
  (List.range rank).map (fun p =>
    match axes.indexOf? p with
    | some t => cIdx.getD t 0
    | none => freeIdx.getD (freePos.indexOf p) 0)

/-- `np.tensordot(a, b, axes=(idxa, idxb))`: generalized dense contraction.
The output legs are `a`'s free legs (ascending) followed by `b`'s free legs
(ascending); each output entry is the sum over the contracted multi-index of
the product of the matching entries. -/
def tensordot {R : Type} [LinearOrderedCommRing R] (a b : NDArray R)
    (idxa idxb : List ℕ) : NDArray R :=
  let freeA := (List.range a.shape.length).filter (fun p => !(idxa.contains p))
  let freeB := (List.range b.shape.length).filter (fun p => !(idxb.contains p))
  let shA := freeA.map (fun p => a.shape.getD p 0)
  let shB := freeB.map (fun p => b.shape.getD p 0)
  let dimsC := idxa.map (fun p => a.shape.getD p 0)
  { shape := shA ++ shB
    data := (allIndices (shA ++ shB)).map (fun oIdx =>
      let ia := oIdx.take shA.length
      let ib := oIdx.drop shA.length
      ((allIndices dimsC).map (fun c =>
        NDArray.at a (mergeIndex a.shape.length idxa c ia) *
        NDArray.at b (mergeIndex b.shape.length idxb c ib))).sum) }

/-- Elementwise negation (`mat *= -1`). -/
def NDArray.neg {R : Type} [LinearOrderedCommRing R] (a : NDArray R) :
    NDArray R :=
  ⟨a.shape, a.data.map (fun x => -x)⟩

/-- Elementwise in-place accumulation (`reduced += mat`); both operands have
the same shape whenever the source performs it. -/
def NDArray.add {R : Type} [LinearOrderedCommRing R] (a b : NDArray R) :
    NDArray R :=
  ⟨a.shape, a.data.zipWith (· + ·) b.data⟩

/-- `arr.item()` on a rank-0 array: its single stored value. -/
def NDArray.item {R : Type} [LinearOrderedCommRing R] (a : NDArray R) : R :=
  a.data.getD 0 0

/-- A zero-filled dense array of a given shape. -/
def NDArray.zeros {R : Type} [LinearOrderedCommRing R] (shape : List ℕ) :
    NDArray R :=
  ⟨shape, List.replicate shape.prod 0⟩

/-- A block in a block-sparse tensor (`SubTensor` in the source): a dense
array together with one quantum label per leg. -/
structure SubTensor (R : Type) where
  q_labels : List SZ
  reduced : NDArray R
  deriving DecidableEq

instance {R : Type} : Inhabited (SubTensor R) := ⟨⟨[], ⟨[], []⟩⟩⟩

/-- `rank == len(q_labels)`. -/
def SubTensor.rank {R : Type} (b : SubTensor R) : ℕ := b.q_labels.length

/-- `SubTensor.__mul__`: scalar multiplication, same labels. -/
def SubTensor.smul {R : Type} [LinearOrderedCommRing R] (b : SubTensor R)
    (c : R) : SubTensor R :=
  ⟨b.q_labels, ⟨b.reduced.shape, b.reduced.data.map (fun x => c * x)⟩⟩

/-- `SubTensor.__neg__`: times `(-1)`, same labels. -/
def SubTensor.negate {R : Type} [LinearOrderedCommRing R] (b : SubTensor R) :
    SubTensor R :=
  ⟨b.q_labels, b.reduced.neg⟩

/-- The fixed enumeration of shape tags (`FusingTypes` in the source). -/
inductive FusingTypes where
  | Scalar
  | ThreeIndexMPSTensor
  | UnfusedThreeIndexMPSTensor
  | LeftFusedMPSTensor
  | RightFusedMPSTensor
  | TwoSiteMPSTensor
  | FourIndexMPOTensor
  | UnfusedFourIndexMPOTensor
  | TwoSiteMPOTensor
  deriving DecidableEq

/-- A block-sparse tensor: its blocks, its shape tag, and an optional net
quantum number. -/
structure SparseTensor (R : Type) where
  blocks : List (SubTensor R)
  ftype : FusingTypes
  delta_quantum : Option SZ
  deriving DecidableEq

/-- `SparseTensor.rank`: 0 for an empty collection, else the first block's
rank. -/
def SparseTensor.rankOf {R : Type} (blocks : List (SubTensor R)) : ℕ :=
  match blocks with
  | [] => 0
  | b :: _ => b.rank

/-- `SparseTensor.__init__`: when no `ftype` is given, infer it from the
(first block's) rank — 3 gives `ThreeIndexMPSTensor`, 4 gives
`FourIndexMPOTensor`, anything else raises
`RuntimeError("Cannot determine sparse-tensor type!")`. -/
def SparseTensor.make {R : Type} (blocks : List (SubTensor R))
    (ftype : Option FusingTypes) (dq : Option SZ) :
    Except String (SparseTensor R) :=
  match ftype with
  | some ft => .ok ⟨blocks, ft, dq⟩
  | none =>
    if SparseTensor.rankOf blocks = 3 then
      .ok ⟨blocks, .ThreeIndexMPSTensor, dq⟩
    else if SparseTensor.rankOf blocks = 4 then
      .ok ⟨blocks, .FourIndexMPOTensor, dq⟩
    else
      .error "Cannot determine sparse-tensor type!"

/-- `SparseTensor.__mul__`: scalar multiplication; the result is constructed
with `ftype=self.ftype` (the constructor is passed an explicit tag). -/
def SparseTensor.smul {R : Type} [LinearOrderedCommRing R] (t : SparseTensor R)
    (c : R) : Except String (SparseTensor R) :=
  SparseTensor.make (t.blocks.map (fun b => b.smul c)) (some t.ftype) none

/-- `SparseTensor.__neg__`: the result is constructed with no `ftype`
argument, so the constructor re-infers the tag from the rank. -/
def SparseTensor.negate {R : Type} [LinearOrderedCommRing R]
    (t : SparseTensor R) : Except String (SparseTensor R) :=
  SparseTensor.make (t.blocks.map SubTensor.negate) none none

/-- The external leg-shape collaborator (`StateInfo`): a mapping from a
quantum label to a leg dimension, iterable as (label, dimension) pairs.
Modelled as an association list in insertion order. -/
structure StateInfo where
  quanta : List (SZ × ℕ)
  deriving DecidableEq

/-- Label-keyed dimension lookup (`StateInfo.__getitem__`). -/
def StateInfo.dim (s : StateInfo) (q : SZ) : ℕ :=
  match s.quanta.find? (fun kv => kv.1 == q) with
  | some kv => kv.2
  | none => 0

/-- The membership test `kr in r.quanta.items()` from the source:
`dict.items()` yields `(label, dimension)` pairs, and Python `==` between a
quantum label and such a pair is always `False` (different types), so this
test never succeeds. -/
def szEqPair (_ : SZ) (_ : SZ × ℕ) : Bool := false

/-- `SparseTensor.init_from_state_info(l, m, r)`: for every label pair
`(kl, km)` of the left and mid maps, compute `kr = kl + km` and test
`kr in r.quanta.items()`; when the test succeeds, append a zero-filled
three-leg block with labels `(kl, km, kr)` and shape `(vl, vm, r[kr])`. -/
def SparseTensor.init_from_state_info {R : Type} [LinearOrderedCommRing R]
    (l m r : StateInfo) : SparseTensor R :=
  let blocks := l.quanta.flatMap (fun kvl =>
    m.quanta.flatMap (fun kvm =>
      let kr := kvl.1 + kvm.1
      if r.quanta.any (fun kv => szEqPair kr kv) then
        [⟨[kvl.1, kvm.1, kr], NDArray.zeros [kvl.2, kvm.2, r.dim kr]⟩]
      else
        []))
  ⟨blocks, .ThreeIndexMPSTensor, some ⟨0⟩⟩

/-- Association-list lookup for a carry-matrix map
(`dict(q_label -> ndarray)`). -/
def lookupMat {R : Type} (mats : List (SZ × NDArray R)) (q : SZ) :
    Option (NDArray R) :=
  match mats.find? (fun kv => kv.1 == q) with
  | some kv => some kv.2
  | none => none

/-- The loop body of `left_multiply`: a block whose first-leg label is a key
of `mats` is appended with data `np.tensordot(mats[q], block, ([1], [0]))`;
any other block is skipped. -/
def leftMultStep {R : Type} [LinearOrderedCommRing R]
    (mats : List (SZ × NDArray R)) (acc : List (SubTensor R))
    (b : SubTensor R) : List (SubTensor R) :=
  match lookupMat mats (b.q_labels.getD 0 default) with
  | some m => acc ++ [⟨b.q_labels, tensordot m b.reduced [1] [0]⟩]
  | none => acc

/-- `SparseTensor.left_multiply(mats)`: rebuild the block list by the loop
`leftMultStep`, then store it back. -/
def SparseTensor.left_multiply {R : Type} [LinearOrderedCommRing R]
    (mats : List (SZ × NDArray R)) (t : SparseTensor R) : SparseTensor R :=
  ⟨t.blocks.foldl (leftMultStep mats) [], t.ftype, t.delta_quantum⟩

/-- The loop body of `right_multiply`: the mirror of `leftMultStep` on the
last leg, with data `np.tensordot(block, mats[q], ([rank - 1], [0]))`. -/
def rightMultStep {R : Type} [LinearOrderedCommRing R]
    (mats : List (SZ × NDArray R)) (acc : List (SubTensor R))
    (b : SubTensor R) : List (SubTensor R) :=
  match lookupMat mats (b.q_labels.getLastD default) with
  | some m => acc ++ [⟨b.q_labels, tensordot b.reduced m [b.rank - 1] [0]⟩]
  | none => acc

/-- `SparseTensor.right_multiply(mats)`: rebuild the block list by the loop
`rightMultStep`, then store it back. -/
def SparseTensor.right_multiply {R : Type} [LinearOrderedCommRing R]
    (mats : List (SZ × NDArray R)) (t : SparseTensor R) : SparseTensor R :=
  ⟨t.blocks.foldl (rightMultStep mats) [], t.ftype, t.delta_quantum⟩

/-- Normalization of a possibly negative leg position:
`x if x >= 0 else rank + x`. -/
def normIdx (rank : ℕ) (x : ℤ) : ℕ := (if 0 ≤ x then x else rank + x).toNat

/-- The labels of a block at the given leg positions. -/
def selectLabels (qs : List SZ) (idx : List ℕ) : List SZ :=
  idx.map (fun i => qs.getD i default)

/-- `list(set(range(0, rank)) - set(idx))`: the uncontracted leg positions.
For the small nonnegative integers involved, CPython iterates such a set in
ascending order, so this is the ascending filter. -/
def outIdx (rank : ℕ) (idx : List ℕ) : List ℕ :=
  (List.range rank).filter (fun p => !(idx.contains p))

/-- Append a B block under its contracted-labels key (`map_idx_b` with dict
insertion order). -/
def insertAppend {R : Type} (m : List (List SZ × List (SubTensor R)))
    (key : List SZ) (blk : SubTensor R) : List (List SZ × List (SubTensor R)) :=
  match m with
  | [] => [(key, [blk])]
  | (k, v) :: rest =>
    if k = key then (k, v ++ [blk]) :: rest
    else (k, v) :: insertAppend rest key blk

/-- `map_idx_b`: B's blocks indexed by the tuple of their labels at the
contracted legs. -/
def buildMapB {R : Type} (blocks : List (SubTensor R)) (idxb : List ℕ) :
    List (List SZ × List (SubTensor R)) :=
  blocks.foldl (fun m blk => insertAppend m (selectLabels blk.q_labels idxb) blk) []

/-- Key lookup in `map_idx_b`. -/
def lookupKey {R : Type} (m : List (List SZ × List (SubTensor R)))
    (key : List SZ) : Option (List (SubTensor R)) :=
  (m.find? (fun kv => kv.1 == key)).map (·.2)

/-- The fermionic sign dispatch of `contract`. The default `fermion` returns
`False`; when a `FourIndexMPOTensor` is contracted on `[2]` with a
`ThreeIndexMPSTensor` on `[1]`, it is redefined to
`(qa[1] + qa[2]).is_fermion and qb[0].is_fermion`. In the source the guard
line `if fermion(block_a.q_labels, block_b.q_labels)` is missing its colon
before `mat *= -1`; the evident intent — the sign flip guarded by the
test — is what is modelled. -/
def fermionRule (fta ftb : FusingTypes) (idxa idxb : List ℕ) (qa qb : List SZ) :
    Bool :=
  if fta = .FourIndexMPOTensor ∧ ftb = .ThreeIndexMPSTensor ∧
      idxa = [2] ∧ idxb = [1] then
    (qa.getD 1 default + qa.getD 2 default).is_fermion &&
      (qb.getD 0 default).is_fermion
  else false

/-- The output shape tag assigned by the dispatch (`out_ftype`): set only for
the registered operator-times-state rule, otherwise left `None`. -/
def outFtypeRule (fta ftb : FusingTypes) (idxa idxb : List ℕ) :
    Option FusingTypes :=
  if fta = .FourIndexMPOTensor ∧ ftb = .ThreeIndexMPSTensor ∧
      idxa = [2] ∧ idxb = [1] then
    some .ThreeIndexMPSTensor
  else none

/-- The contributions of one A block in `contract`: when its contracted-leg
label tuple has matches in `map_idx_b`, each matching B block (in insertion
order) yields the output label tuple `outg` together with the sign-adjusted
dense contraction `mat`. -/
def pairsOfA {R : Type} [LinearOrderedCommRing R] (fta ftb : FusingTypes)
    (mapb : List (List SZ × List (SubTensor R))) (idxa idxb oia oib : List ℕ)
    (ba : SubTensor R) : List (List SZ × NDArray R) :=
  match lookupKey mapb (selectLabels ba.q_labels idxa) with
  | none => []
  | some bbs => bbs.map (fun bb =>
      let outg := selectLabels ba.q_labels oia ++ selectLabels bb.q_labels oib
      let mat := tensordot ba.reduced bb.reduced idxa idxb
      (outg,
       if fermionRule fta ftb idxa idxb ba.q_labels bb.q_labels
       then mat.neg else mat))

/-- The matching (A-block, B-block) contributions of `contract`, in loop
order. -/
def contractPairs {R : Type} [LinearOrderedCommRing R] (spta sptb : SparseTensor R)
    (idxa0 idxb0 : List ℤ) : List (List SZ × NDArray R) :=
  let idxa := idxa0.map (normIdx (SparseTensor.rankOf spta.blocks))
  let idxb := idxb0.map (normIdx (SparseTensor.rankOf sptb.blocks))
  let oia := outIdx (SparseTensor.rankOf spta.blocks) idxa
  let oib := outIdx (SparseTensor.rankOf sptb.blocks) idxb
  let mapb := buildMapB sptb.blocks idxb
  spta.blocks.flatMap (pairsOfA spta.ftype sptb.ftype mapb idxa idxb oia oib)

/-- One accumulation step `map_idx_out[outd] += mat` on the insertion-ordered
map: a missing key is appended with a fresh block, an existing key has `mat`
added elementwise into its block. -/
def addToOut {R : Type} [LinearOrderedCommRing R]
    (m : List (List SZ × SubTensor R)) (key : List SZ) (mat : NDArray R) :
    List (List SZ × SubTensor R) :=
  match m with
  | [] => [(key, ⟨key, mat⟩)]
  | (k, st) :: rest =>
    if k = key then (k, ⟨st.q_labels, st.reduced.add mat⟩) :: rest
    else (k, st) :: addToOut rest key mat

/-- The accumulation map `map_idx_out` built by the double loop of
`contract`: each matching pair's contribution, in loop order, is accumulated
into the entry keyed by its output label tuple. -/
def contractOutMap {R : Type} [LinearOrderedCommRing R]
    (spta sptb : SparseTensor R) (idxa0 idxb0 : List ℤ) :
    List (List SZ × SubTensor R) :=
  (contractPairs spta sptb idxa0 idxb0).foldl
    (fun m km => addToOut m km.1 km.2) []

/-- Lookup in the accumulation map. -/
def lookupOut {R : Type} (m : List (List SZ × SubTensor R)) (key : List SZ) :
    Option (SubTensor R) :=
  (m.find? (fun kv => kv.1 == key)).map (·.2)

/-- `SparseTensor.contract`: contract two block-sparse tensors. When no
output legs remain the result is a plain scalar — `0.0` for an empty
accumulation map, otherwise `map_idx_out[()].reduced.item()`; otherwise the
accumulated blocks are wrapped in a new `SparseTensor` with the dispatched
output tag (`None` for unregistered combinations, making the constructor
re-infer or raise). -/
def SparseTensor.contract {R : Type} [LinearOrderedCommRing R]
    (spta sptb : SparseTensor R) (idxa0 idxb0 : List ℤ) :
    Except String (R ⊕ SparseTensor R) :=
  if idxa0.length ≠ idxb0.length then .error "AssertionError"
  else
    let idxa := idxa0.map (normIdx (SparseTensor.rankOf spta.blocks))
    let idxb := idxb0.map (normIdx (SparseTensor.rankOf sptb.blocks))
    let oia := outIdx (SparseTensor.rankOf spta.blocks) idxa
    let oib := outIdx (SparseTensor.rankOf sptb.blocks) idxb
    let outm := contractOutMap spta sptb idxa0 idxb0
    if oia.length + oib.length = 0 then
      if outm.length = 0 then .ok (.inl 0)
      else
        match lookupOut outm [] with
        | some st => .ok (.inl st.reduced.item)
        | none => .error "KeyError"
    else
      (SparseTensor.make (outm.map (·.2))
        (outFtypeRule spta.ftype sptb.ftype idxa idxb) none).map .inr

/-- An entry of the flattened singular-value list: (group id, local index,
value). -/
abbrev SVTriple (R : Type) := ℕ × ℕ × R

/-- The comparison realized by the stable `ss.sort(key=lambda x: -x[2])`:
`x` may precede `y` when its value is at least `y`'s. -/
def svDesc {R : Type} [LinearOrderedCommRing R] (x y : SVTriple R) : Prop :=
  y.2.2 ≤ x.2.2

instance {R : Type} [LinearOrderedCommRing R] : DecidableRel (svDesc (R := R)) :=
  fun x y => inferInstanceAs (Decidable (y.2.2 ≤ x.2.2))

instance {R : Type} [LinearOrderedCommRing R] :
    IsTotal (SVTriple R) (svDesc (R := R)) :=
  ⟨fun a b => le_total b.2.2 a.2.2⟩

instance {R : Type} [LinearOrderedCommRing R] :
    IsTrans (SVTriple R) (svDesc (R := R)) :=
  ⟨fun _ _ _ h1 h2 => le_trans h2 h1⟩

/-- The ascending lexicographic comparison realized by
`ss_trunc.sort(key=lambda x: (x[0], x[1]))`. -/
def svAsc {R : Type} (x y : SVTriple R) : Prop :=
  x.1 < y.1 ∨ (x.1 = y.1 ∧ x.2.1 ≤ y.2.1)

instance {R : Type} : DecidableRel (svAsc (R := R)) := fun x y =>
  inferInstanceAs (Decidable (x.1 < y.1 ∨ (x.1 = y.1 ∧ x.2.1 ≤ y.2.1)))

instance {R : Type} : IsTotal (SVTriple R) (svAsc (R := R)) := ⟨fun a b => by
  rcases lt_trichotomy a.1 b.1 with h | h | h
  · exact Or.inl (Or.inl h)
  · rcases le_total a.2.1 b.2.1 with h2 | h2
    · exact Or.inl (Or.inr ⟨h, h2⟩)
    · exact Or.inr (Or.inr ⟨h.symm, h2⟩)
  · exact Or.inr (Or.inl h)⟩

instance {R : Type} : IsTrans (SVTriple R) (svAsc (R := R)) :=
  ⟨fun a b c h1 h2 => by
    rcases h1 with h1 | ⟨h1e, h1le⟩
    · rcases h2 with h2 | ⟨h2e, _⟩
      · exact Or.inl (h1.trans h2)
      · exact Or.inl (h2e ▸ h1)
    · rcases h2 with h2 | ⟨h2e, h2le⟩
      · exact Or.inl (h1e ▸ h2)
      · exact Or.inr ⟨h1e.trans h2e, h1le.trans h2le⟩⟩

/-- `ss = [(i, j, v) for i, ps in enumerate(svd_s) for j, v in enumerate(ps)]`
(written with `range`/`getD`, extensionally the enumeration of the source). -/
def ssList {R : Type} [LinearOrderedCommRing R] (svd_s : List (List R)) :
    List (SVTriple R) :=
  (List.range svd_s.length).flatMap (fun i =>
    (List.range (svd_s.getD i []).length).map
      (fun j => (i, j, (svd_s.getD i []).getD j 0)))

/-- Python slicing `l[:k]` for an integer `k` (from the end when negative). -/
def pySlice {R : Type} (l : List (SVTriple R)) (k : ℤ) : List (SVTriple R) :=
  if 0 ≤ k then l.take k.toNat else l.take (l.length - (-k).toNat)

/-- `ss_trunc`: the descending (stable) sort, the cutoff filter
`x[2] >= cutoff`, and the top-`k` slice (`k == -1` disables the slice). -/
def ssTrunc {R : Type} [LinearOrderedCommRing R] (svd_s : List (List R))
    (k : ℤ) (cutoff : R) : List (SVTriple R) :=
  let st := (List.insertionSort svDesc (ssList svd_s)).filter
    (fun x => cutoff ≤ x.2.2)
  if k = -1 then st else pySlice st k

/-- `ss_trunc` re-sorted ascending by `(group, local index)` before the
`groupby` pass. -/
def ssKept {R : Type} [LinearOrderedCommRing R] (svd_s : List (List R))
    (k : ℤ) (cutoff : R) : List (SVTriple R) :=
  List.insertionSort svAsc (ssTrunc svd_s k cutoff)

/-- `gls`: for each group, the kept local indices, or `None` when nothing in
the group survives. `itertools.groupby` over the `(i, j)`-sorted `ss_trunc`
hands each group `ik` its consecutive run — the sublist with first component
`ik`. -/
def glsOf {R : Type} [LinearOrderedCommRing R] (svd_s : List (List R))
    (k : ℤ) (cutoff : R) : List (Option (List ℕ)) :=
  (List.range svd_s.length).map (fun ik =>
    let g := ((ssKept svd_s k cutoff).filter (fun x => x.1 == ik)).map
      (fun x => x.2.1)
    if g.isEmpty then none else some g)

/-- `svd_r`: per kept group `ik`, the surviving values `svd_s[ik][gl]`. -/
def svdROf {R : Type} [LinearOrderedCommRing R] (svd_s : List (List R))
    (k : ℤ) (cutoff : R) : List (Option (List R)) :=
  (List.range svd_s.length).map (fun ik =>
    match (glsOf svd_s k cutoff).getD ik none with
    | some gl => some (gl.map (fun j => (svd_s.getD ik []).getD j 0))
    | none => none)

/-- The accumulated `error`: kept groups add the squares of their values at
the complementary indices `gl_inv = set(range(len)) - set(gl)`; groups with
nothing kept add the squares of all their values. The source returns
`np.sqrt` of this accumulator. -/
def truncErrorSq {R : Type} [LinearOrderedCommRing R] (svd_s : List (List R))
    (k : ℤ) (cutoff : R) : R :=
  ((List.range svd_s.length).map (fun ik =>
    let ps := svd_s.getD ik []
    match (glsOf svd_s k cutoff).getD ik none with
    | some gl =>
      (((List.range ps.length).filter (fun j => !(gl.contains j))).map
        (fun j => ps.getD j 0 ^ 2)).sum
    | none => (ps.map (fun v => v ^ 2)).sum)).sum

/-- `truncate_singular_values(svd_s, k, cutoff)`; the third component is the
pre-`np.sqrt` error accumulator (see `truncError` for the returned root). -/
def truncate_singular_values {R : Type} [LinearOrderedCommRing R]
    (svd_s : List (List R)) (k : ℤ) (cutoff : R) :
    List (Option (List R)) × List (Option (List ℕ)) × R :=
  (svdROf svd_s k cutoff, glsOf svd_s k cutoff, truncErrorSq svd_s k cutoff)

/-- The truncation error as returned by the source: `np.sqrt(error)`, stated
for the rational instantiation of the scalar ring. -/
noncomputable def truncError (svd_s : List (List ℚ)) (k : ℤ) (cutoff : ℚ) : ℝ :=
  Real.sqrt ((truncErrorSq svd_s k cutoff : ℚ) : ℝ)

/-- Whether `truncate_singular_values` keeps the entry with local index `j`
of group `i`, read off the returned `gls`. -/
def keptIdx {R : Type} [LinearOrderedCommRing R] (svd_s : List (List R))
    (k : ℤ) (cutoff : R) (i j : ℕ) : Bool :=
  match (glsOf svd_s k cutoff).getD i none with
  | some gl => gl.contains j
  | none => false

/-- The distinct last-leg labels in order of first appearance: the keys of
`collected_rows` in `left_canonicalize`. -/
def groupLabelsLast {R : Type} (blocks : List (SubTensor R)) : List SZ :=
  blocks.foldl (fun acc b =>
    let q := b.q_labels.getLastD default
    if acc.contains q then acc else acc ++ [q]) []

/-- The blocks with a given last-leg label, in collection order: the value
`collected_rows[q]`. -/
def groupOfLast {R : Type} (blocks : List (SubTensor R)) (q : SZ) :
    List (SubTensor R) :=
  blocks.filter (fun b => b.q_labels.getLastD default == q)

/-- `np.prod(b.reduced.shape[:-1])`: the row count of a block flattened over
its leading legs. -/
def flatRows {R : Type} (b : SubTensor R) : ℕ := b.reduced.shape.dropLast.prod

/-- `np.concatenate([b.reduced.reshape((sh, -1)) for b in blocks], axis=0)`:
in the flat row-major representation, reshaping leaves the data unchanged and
row-stacking concatenates it; the column count is the blocks' shared trailing
dimension (read off the first block). -/
def stackMat {R : Type} (blks : List (SubTensor R)) : NDArray R :=
  ⟨[(blks.map flatRows).sum, blks.headI.reduced.shape.getLastD 1],
   (blks.map (fun b => b.reduced.data)).flatten⟩

/-- `np.split(q, accumulate(l_shapes[:-1]), axis=0)` on a matrix with `c`
columns: consecutive row segments of the flat data, `rs[i]` rows each. -/
def splitRows {R : Type} (d : List R) (c : ℕ) (rs : List ℕ) : List (List R) :=
  match rs with
  | [] => []
  | r :: rest => d.take (r * c) :: splitRows (d.drop (r * c)) c rest

/-- The write-back `b.reduced = q_i.reshape(b.reduced.shape[:-1] + (r.shape[0],))`
of `left_canonicalize`: the block keeps its labels and leading shape, its
trailing dimension becomes `c = r.shape[0]`, and its data is its row slice
`q_i` of the `Q` factor. -/
def canonBlock {R : Type} (c : ℕ) (bp : SubTensor R × List R) : SubTensor R :=
  ⟨bp.1.q_labels, ⟨bp.1.reduced.shape.dropLast ++ [c], bp.2⟩⟩

/-- One group of `left_canonicalize`: QR-factor the stacked matrix, then give
each block its row slice of `q`, reshaped to its leading shape with the new
trailing dimension `r.shape[0]`. `qrFn` stands for the external
`np.linalg.qr(mat, mode='reduced')`. -/
def leftCanonGroup {R : Type} (qrFn : NDArray R → NDArray R × NDArray R)
    (blks : List (SubTensor R)) : List (SubTensor R) :=
  let qr := qrFn (stackMat blks)
  let pieces := splitRows qr.1.data (qr.1.shape.getD 1 0) (blks.map flatRows)
  (blks.zip pieces).map (canonBlock (qr.2.shape.getD 0 0))

/-- `left_canonicalize` (parameterized by the external `np.linalg.qr`): group
the blocks by last-leg label; per group, QR the stacked flattened matrix,
write the `Q` row slices back into the group's blocks and record `R` under
the group's label. The source mutates the blocks in place (keeping their
interleaved order in the collection); the model lists them group by group,
which is equivalent for every per-group property. -/
def left_canonicalize {R : Type} (qrFn : NDArray R → NDArray R × NDArray R)
    (t : SparseTensor R) : List (SubTensor R) × List (SZ × NDArray R) :=
  let labels := groupLabelsLast t.blocks
  (labels.flatMap (fun q => leftCanonGroup qrFn (groupOfLast t.blocks q)),
   labels.map (fun q => (q, (qrFn (stackMat (groupOfLast t.blocks q))).2)))

/-- `m × k` times `k × n` matrix multiplication on the flat representation. -/
def matmul {R : Type} [LinearOrderedCommRing R] (a b : NDArray R) : NDArray R :=
  let m := a.shape.getD 0 0
  let k := a.shape.getD 1 0
  let n := b.shape.getD 1 0
  ⟨[m, n],
   (List.range m).flatMap (fun i => (List.range n).map (fun j =>
     ((List.range k).map (fun t =>
       a.data.getD (i * k + t) 0 * b.data.getD (t * n + j) 0)).sum))⟩

/-- Matrix transposition on the flat representation. -/
def transposeM {R : Type} [LinearOrderedCommRing R] (a : NDArray R) : NDArray R :=
  let m := a.shape.getD 0 0
  let n := a.shape.getD 1 0
  ⟨[n, m],
   (List.range n).flatMap (fun j => (List.range m).map (fun i =>
     a.data.getD (i * n + j) 0))⟩

/-- The `n × n` identity matrix. -/
def idMat {R : Type} [LinearOrderedCommRing R] (n : ℕ) : NDArray R :=
  ⟨[n, n],
   (List.range n).flatMap (fun i => (List.range n).map (fun j =>
     if i = j then (1 : R) else 0))⟩

/-- Decidable equality for `Except` results (used to evaluate `contract` at
concrete inputs). -/
def exceptDecEq {ε α : Type} [DecidableEq ε] [DecidableEq α] :
    DecidableEq (Except ε α) := fun a b =>
  match a, b with
  | .error e, .error f =>
    if h : e = f then .isTrue (by rw [h])
    else .isFalse (fun hh => h (Except.error.inj hh))
  | .error _, .ok _ => .isFalse (fun hh => Except.noConfusion hh)
  | .ok _, .error _ => .isFalse (fun hh => Except.noConfusion hh)
  | .ok a, .ok b =>
    if h : a = b then .isTrue (by rw [h])
    else .isFalse (fun hh => h (Except.ok.inj hh))

instance {ε α : Type} [DecidableEq ε] [DecidableEq α] : DecidableEq (Except ε α) :=
  exceptDecEq

/-- A concrete bosonic (even) quantum label. -/
def q0 : SZ := ⟨0⟩

/-- A concrete fermionic (odd) quantum label. -/
def q1 : SZ := ⟨1⟩

/-- The rank of a negated block list is the rank of the original. -/
theorem rankOf_map_negate {R : Type} [LinearOrderedCommRing R]
    (blocks : List (SubTensor R)) :
    SparseTensor.rankOf (blocks.map SubTensor.negate) =
      SparseTensor.rankOf blocks := by
  cases blocks with
  | nil => rfl
  | cons b bs => simp [SparseTensor.rankOf, SubTensor.negate, SubTensor.rank]

/-- C9: with no explicit tag, construction succeeds with the three-index
state-tensor tag when the blocks' common rank is 3, with the four-index
operator-tensor tag when it is 4, and raises the undetermined-tag error for
every other common rank — in particular for zero blocks, whose rank reads 0,
so an explicit tag is then required (and always suffices). -/
theorem C9_ftype_inference {R : Type} [LinearOrderedCommRing R]
    (blocks : List (SubTensor R)) (dq : Option SZ) (r : ℕ)
    (hr : ∀ b ∈ blocks, b.rank = r) :
    (blocks ≠ [] → r = 3 →
      SparseTensor.make blocks none dq = .ok ⟨blocks, .ThreeIndexMPSTensor, dq⟩) ∧
    (blocks ≠ [] → r = 4 →
      SparseTensor.make blocks none dq = .ok ⟨blocks, .FourIndexMPOTensor, dq⟩) ∧
    ((blocks = [] ∨ (r ≠ 3 ∧ r ≠ 4)) →
      SparseTensor.make blocks none dq =
        .error "Cannot determine sparse-tensor type!") ∧
    (∀ ft, SparseTensor.make blocks (some ft) dq = .ok ⟨blocks, ft, dq⟩) := by
  refine ⟨?_, ?_, ?_, fun ft => rfl⟩
  · intro hne h3
    cases blocks with
    | nil => exact absurd rfl hne
    | cons b bs =>
      have hb : b.rank = r := hr b (List.mem_cons_self b bs)
      simp [SparseTensor.make, SparseTensor.rankOf, hb, h3]
  · intro hne h4
    cases blocks with
    | nil => exact absurd rfl hne
    | cons b bs =>
      have hb : b.rank = r := hr b (List.mem_cons_self b bs)
      simp [SparseTensor.make, SparseTensor.rankOf, hb, h4]
  · intro h
    cases blocks with
    | nil => simp [SparseTensor.make, SparseTensor.rankOf]
    | cons b bs =>
      rcases h with h | ⟨h3, h4⟩
      · exact absurd h (by simp)
      · have hb : b.rank = r := hr b (List.mem_cons_self b bs)
        simp [SparseTensor.make, SparseTensor.rankOf, hb, h3, h4]

/-- Witness for C9 at a concrete rank-3 one-block collection. -/
theorem C9_ftype_inference_witness :
    (∀ b ∈ [(⟨[q0, q0, q0], ⟨[1, 1, 1], [0]⟩⟩ : SubTensor ℤ)], b.rank = 3) ∧
    SparseTensor.make [(⟨[q0, q0, q0], ⟨[1, 1, 1], [0]⟩⟩ : SubTensor ℤ)] none none =
      .ok ⟨[⟨[q0, q0, q0], ⟨[1, 1, 1], [0]⟩⟩], .ThreeIndexMPSTensor, none⟩ :=
  ⟨by decide,
   (C9_ftype_inference [(⟨[q0, q0, q0], ⟨[1, 1, 1], [0]⟩⟩ : SubTensor ℤ)] none 3
     (by decide)).1 (by simp) rfl⟩

/-- C10: scalar multiplication rebuilds the collection with an explicit
`ftype=self.ftype` and so preserves the tag, while negation passes no tag:
it raises the undetermined-tag error whenever the blocks' rank is not 3 or 4
(a zero-block collection reads rank 0, even though the original was validly
constructed with an explicit tag), and silently retags any rank-3 or rank-4
collection with the default tag for that rank. -/
theorem C10_neg_drops_ftype {R : Type} [LinearOrderedCommRing R]
    (t : SparseTensor R) (c : R) :
    SparseTensor.smul t c =
      .ok ⟨t.blocks.map (fun b => b.smul c), t.ftype, none⟩ ∧
    (SparseTensor.rankOf t.blocks ≠ 3 → SparseTensor.rankOf t.blocks ≠ 4 →
      SparseTensor.negate t = .error "Cannot determine sparse-tensor type!") ∧
    (SparseTensor.rankOf t.blocks = 3 →
      SparseTensor.negate t =
        .ok ⟨t.blocks.map SubTensor.negate, .ThreeIndexMPSTensor, none⟩) ∧
    (SparseTensor.rankOf t.blocks = 4 →
      SparseTensor.negate t =
        .ok ⟨t.blocks.map SubTensor.negate, .FourIndexMPOTensor, none⟩) := by
  refine ⟨rfl, ?_, ?_, ?_⟩
  · intro h3 h4
    simp [SparseTensor.negate, SparseTensor.make, rankOf_map_negate, h3, h4]
  · intro h3
    simp [SparseTensor.negate, SparseTensor.make, rankOf_map_negate, h3]
  · intro h4
    simp [SparseTensor.negate, SparseTensor.make, rankOf_map_negate, h4]

/-- Witness for C10: a valid rank-2 collection with an explicit tag whose
negation nevertheless raises the undetermined-tag error. -/
theorem C10_neg_drops_ftype_witness :
    SparseTensor.rankOf (⟨[⟨[q0, q0], ⟨[1, 1], [2]⟩⟩], .TwoSiteMPSTensor, none⟩ :
        SparseTensor ℤ).blocks ≠ 3 ∧
    SparseTensor.negate
        (⟨[⟨[q0, q0], ⟨[1, 1], [2]⟩⟩], .TwoSiteMPSTensor, none⟩ : SparseTensor ℤ) =
      .error "Cannot determine sparse-tensor type!" :=
  ⟨by decide,
   (C10_neg_drops_ftype
     (⟨[⟨[q0, q0], ⟨[1, 1], [2]⟩⟩], .TwoSiteMPSTensor, none⟩ : SparseTensor ℤ)
     1).2.1 (by decide) (by decide)⟩

/-- C8 (code bug): the membership test `kr in r.quanta.items()` compares a
quantum label against `(label, dimension)` pairs and never succeeds, so
`init_from_state_info` creates no block at all — in particular not at the
claim's own kind of example, where the fused label is present in the right
map with dimension 1. -/
theorem C8_init_creates_no_blocks :
    (∀ l m r : StateInfo,
      (SparseTensor.init_from_state_info (R := ℚ) l m r).blocks = []) ∧
    (SparseTensor.init_from_state_info (R := ℤ) ⟨[(q0, 1)]⟩ ⟨[(q1, 1)]⟩
      ⟨[(q0 + q1, 1)]⟩).blocks = [] := by
  constructor
  · intro l m r
    simp [SparseTensor.init_from_state_info, szEqPair]
  · decide

/-- The `left_multiply` loop is the `filterMap` of lookup-then-transform. -/
theorem foldl_leftMultStep {R : Type} [LinearOrderedCommRing R]
    (mats : List (SZ × NDArray R)) (l : List (SubTensor R))
    (acc : List (SubTensor R)) :
    l.foldl (leftMultStep mats) acc =
      acc ++ l.filterMap (fun b =>
        (lookupMat mats (b.q_labels.getD 0 default)).map
          (fun m => ⟨b.q_labels, tensordot m b.reduced [1] [0]⟩)) := by
  induction l generalizing acc with
  | nil => simp
  | cons b l ih =>
    cases h : lookupMat mats (b.q_labels.getD 0 default) with
    | none =>
      simp only [List.foldl_cons, leftMultStep, h, List.filterMap_cons,
        Option.map_none']
      exact ih acc
    | some m =>
      simp only [List.foldl_cons, leftMultStep, h, List.filterMap_cons,
        Option.map_some']
      rw [ih]
      simp

/-- The `right_multiply` loop is the `filterMap` of lookup-then-transform. -/
theorem foldl_rightMultStep {R : Type} [LinearOrderedCommRing R]
    (mats : List (SZ × NDArray R)) (l : List (SubTensor R))
    (acc : List (SubTensor R)) :
    l.foldl (rightMultStep mats) acc =
      acc ++ l.filterMap (fun b =>
        (lookupMat mats (b.q_labels.getLastD default)).map
          (fun m => ⟨b.q_labels, tensordot b.reduced m [b.rank - 1] [0]⟩)) := by
  induction l generalizing acc with
  | nil => simp
  | cons b l ih =>
    cases h : lookupMat mats (b.q_labels.getLastD default) with
    | none =>
      simp only [List.foldl_cons, rightMultStep, h, List.filterMap_cons,
        Option.map_none']
      exact ih acc
    | some m =>
      simp only [List.foldl_cons, rightMultStep, h, List.filterMap_cons,
        Option.map_some']
      rw [ih]
      simp

/-- C7: `left_multiply` keeps exactly the blocks whose first-leg label is a
key of the carry map, replacing each kept block's data with the dense product
`tensordot(mats[q], block, ([1], [0]))`, and drops every other block;
`right_multiply` mirrors this on the last leg with
`tensordot(block, mats[q], ([rank - 1], [0]))`. Both leave the tag alone. -/
theorem C7_carry_application {R : Type} [LinearOrderedCommRing R]
    (mats : List (SZ × NDArray R)) (t : SparseTensor R) :
    (SparseTensor.left_multiply mats t).blocks =
      t.blocks.filterMap (fun b =>
        (lookupMat mats (b.q_labels.getD 0 default)).map
          (fun m => ⟨b.q_labels, tensordot m b.reduced [1] [0]⟩)) ∧
    (SparseTensor.right_multiply mats t).blocks =
      t.blocks.filterMap (fun b =>
        (lookupMat mats (b.q_labels.getLastD default)).map
          (fun m => ⟨b.q_labels, tensordot b.reduced m [b.rank - 1] [0]⟩)) ∧
    (SparseTensor.left_multiply mats t).ftype = t.ftype ∧
    (SparseTensor.right_multiply mats t).ftype = t.ftype := by
  refine ⟨?_, ?_, rfl, rfl⟩
  · simpa [SparseTensor.left_multiply] using foldl_leftMultStep mats t.blocks []
  · simpa [SparseTensor.right_multiply] using foldl_rightMultStep mats t.blocks []

/-- Modelled from the spec's words, for comparison with the source (claim
C2): the sign would flip exactly when the fermionic parity of the fused
mid+right labels of the A block *disagrees* with the parity of the left
label of the B block. -/
def claimedFermionRule (fta ftb : FusingTypes) (idxa idxb : List ℕ)
    (qa qb : List SZ) : Bool :=
  if fta = .FourIndexMPOTensor ∧ ftb = .ThreeIndexMPSTensor ∧
      idxa = [2] ∧ idxb = [1] then
    (qa.getD 1 default + qa.getD 2 default).is_fermion !=
      (qb.getD 0 default).is_fermion
  else false

/-- A concrete four-leg operator tensor whose mid+right fused label is
fermionic. -/
def cOpA : SparseTensor ℤ :=
  ⟨[⟨[q0, q1, q0, q0], ⟨[1, 1, 1, 1], [1]⟩⟩], .FourIndexMPOTensor, none⟩

/-- A concrete three-leg state tensor whose left label is fermionic. -/
def cMpsB : SparseTensor ℤ :=
  ⟨[⟨[q1, q0, q0], ⟨[1, 1, 1], [1]⟩⟩], .ThreeIndexMPSTensor, none⟩

/-- Counterexample to C2 as stated: at this input the fused mid+right parity
of A (odd) *agrees* with the left-leg parity of B (odd), so the claimed
disagreement rule applies no flip — yet `contract` multiplies the (unit)
contribution by `-1`. -/
theorem C2_sign_rule_counterexample :
    claimedFermionRule .FourIndexMPOTensor .ThreeIndexMPSTensor [2] [1]
      [q0, q1, q0, q0] [q1, q0, q0] = false ∧
    SparseTensor.contract cOpA cMpsB [2] [1] =
      .ok (.inr ⟨[⟨[q0, q1, q0, q1, q0], ⟨[1, 1, 1, 1, 1], [-1]⟩⟩],
        .ThreeIndexMPSTensor, none⟩) := by
  constructor
  · decide
  · decide

/-- C2 amended: the sign dispatched by `contract` flips exactly when the
operator-times-state rule is selected (four-leg operator tensor contracted on
its down leg `[2]` with a three-leg state tensor on its mid leg `[1]`) AND
the fused mid+right labels of the A block and the left label of the B block
are BOTH fermionic; every other tag/leg combination applies no flip. -/
theorem C2_sign_rule_amended (fta ftb : FusingTypes) (idxa idxb : List ℕ)
    (qa qb : List SZ) :
    fermionRule fta ftb idxa idxb qa qb = true ↔
      (fta = .FourIndexMPOTensor ∧ ftb = .ThreeIndexMPSTensor ∧
        idxa = [2] ∧ idxb = [1] ∧
        (qa.getD 1 default + qa.getD 2 default).is_fermion = true ∧
        (qb.getD 0 default).is_fermion = true) := by
  unfold fermionRule
  split
  · rename_i h
    simp [h.1, h.2.1, h.2.2.1, h.2.2.2]
  · rename_i h
    simp only [Bool.false_eq_true, false_iff]
    intro hc
    exact h ⟨hc.1, hc.2.1, hc.2.2.1, hc.2.2.2.1⟩

/-- The block stored at a key after one accumulation step: a fresh block for
a missing key, elementwise accumulation into an existing one. -/
def accumBlock {R : Type} [LinearOrderedCommRing R] (o : Option (SubTensor R))
    (key : List SZ) (mat : NDArray R) : SubTensor R :=
  match o with
  | none => ⟨key, mat⟩
  | some st => ⟨st.q_labels, st.reduced.add mat⟩

/-- The elementwise-sum combination of an optional existing output block with
a list of further contributions sharing its key. -/
def combineOut {R : Type} [LinearOrderedCommRing R] :
    Option (SubTensor R) → List SZ → List (NDArray R) → Option (SubTensor R)
  | none, _, [] => none
  | none, t, c :: cs => some ⟨t, cs.foldl NDArray.add c⟩
  | some st, _, cs => some ⟨st.q_labels, cs.foldl NDArray.add st.reduced⟩

/-- Absorbing one accumulation step into the combination. -/
theorem combineOut_step {R : Type} [LinearOrderedCommRing R]
    (o : Option (SubTensor R)) (t : List SZ) (mat : NDArray R)
    (ms : List (NDArray R)) :
    combineOut (some (accumBlock o t mat)) t ms = combineOut o t (mat :: ms) := by
  cases o with
  | none => simp [accumBlock, combineOut]
  | some st => simp [accumBlock, combineOut]

/-- Looking up a cons cell of the accumulation map. -/
theorem lookupOut_cons {R : Type} (k : List SZ) (st : SubTensor R)
    (rest : List (List SZ × SubTensor R)) (t : List SZ) :
    lookupOut ((k, st) :: rest) t = if k = t then some st else lookupOut rest t := by
  by_cases h : k = t
  · simp [lookupOut, List.find?_cons_of_pos, h]
  · have hb : ((k, st).1 == t) = false := by simpa using h
    simp [lookupOut, List.find?_cons_of_neg, hb, h]

/-- Lookup after one accumulation step. -/
theorem lookupOut_addToOut {R : Type} [LinearOrderedCommRing R]
    (m : List (List SZ × SubTensor R)) (key : List SZ) (mat : NDArray R)
    (t : List SZ) :
    lookupOut (addToOut m key mat) t =
      if t = key then some (accumBlock (lookupOut m key) key mat)
      else lookupOut m t := by
  induction m with
  | nil =>
    by_cases h : t = key
    · simp [addToOut, lookupOut_cons, lookupOut, accumBlock, h]
    · simp [addToOut, lookupOut_cons, lookupOut, accumBlock, h, Ne.symm h]
  | cons kst rest ih =>
    obtain ⟨k, st⟩ := kst
    by_cases hk : k = key
    · subst hk
      by_cases ht : t = k
      · subst ht
        simp [addToOut, lookupOut_cons, accumBlock]
      · simp [addToOut, lookupOut_cons, Ne.symm ht, ht]
    · by_cases ht : t = key
      · subst ht
        simp [addToOut, hk, lookupOut_cons, Ne.symm hk, ih]
      · by_cases hkt : k = t
        · subst hkt
          simp [addToOut, hk, lookupOut_cons, ih, ht]
        · simp [addToOut, hk, lookupOut_cons, hkt, ih, ht]

/-- The accumulation fold: the entry at key `t` combines the initial entry
with every contribution keyed `t`, in order. -/
theorem foldl_addToOut {R : Type} [LinearOrderedCommRing R]
    (pairs : List (List SZ × NDArray R)) (m : List (List SZ × SubTensor R))
    (t : List SZ) :
    lookupOut (pairs.foldl (fun m km => addToOut m km.1 km.2) m) t =
      combineOut (lookupOut m t) t
        ((pairs.filter (fun km => km.1 == t)).map (·.2)) := by
  induction pairs generalizing m with
  | nil =>
    cases h : lookupOut m t with
    | none => simp [combineOut, h]
    | some st => cases st; simp [combineOut, h]
  | cons km pairs ih =>
    simp only [List.foldl_cons, List.filter_cons]
    rw [ih, lookupOut_addToOut]
    by_cases hk : t = km.1
    · have hbt : (km.1 == t) = true := by simpa using hk.symm
      rw [if_pos hk, hbt]
      simp only [if_true, List.map_cons]
      rw [← hk]
      exact combineOut_step (lookupOut m t) t km.2 _
    · have hbt : (km.1 == t) = false := by simpa using Ne.symm hk
      rw [if_neg hk, hbt]
      simp

/-- A constructor call returning `ok` keeps exactly the given blocks. -/
theorem make_ok_blocks {R : Type} (blocks : List (SubTensor R))
    (ft : Option FusingTypes) (dq : Option SZ) (st : SparseTensor R)
    (h : SparseTensor.make blocks ft dq = .ok st) : st.blocks = blocks := by
  unfold SparseTensor.make at h
  split at h
  · cases h; rfl
  · split at h
    · cases h; rfl
    · split at h
      · cases h; rfl
      · cases h

/-- Inverting `Except.map Sum.inr` on an `ok`-with-`inr` result. -/
theorem exceptMap_sumInr_ok {ε A B : Type} (e : Except ε B) (st : B)
    (h : Except.map Sum.inr e = (.ok (.inr st) : Except ε (A ⊕ B))) :
    e = .ok st := by
  cases e with
  | error err => simp [Except.map] at h
  | ok v =>
    simp only [Except.map] at h
    cases h
    rfl

/-- C3: for every output label tuple, the accumulated output block is the
elementwise sum (`NDArray.add` fold) of ALL matching pair contributions that
produce that tuple, in loop order — never just the last one; and the blocks
of a tensor-valued `contract` result are exactly the accumulated blocks. -/
theorem C3_contract_accumulates {R : Type} [LinearOrderedCommRing R]
    (spta sptb : SparseTensor R) (idxa0 idxb0 : List ℤ) (t : List SZ) :
    lookupOut (contractOutMap spta sptb idxa0 idxb0) t =
      combineOut none t
        (((contractPairs spta sptb idxa0 idxb0).filter
          (fun km => km.1 == t)).map (·.2)) ∧
    (∀ st, SparseTensor.contract spta sptb idxa0 idxb0 = .ok (.inr st) →
      st.blocks = (contractOutMap spta sptb idxa0 idxb0).map (·.2)) := by
  constructor
  · have h := foldl_addToOut (contractPairs spta sptb idxa0 idxb0) [] t
    simpa [contractOutMap, lookupOut] using h
  · intro st h
    simp only [SparseTensor.contract] at h
    split at h
    · simp at h
    · split at h
      · split at h
        · simp at h
        · split at h
          · simp at h
          · simp at h
      · exact make_ok_blocks _ _ _ _ (exceptMap_sumInr_ok _ _ h)

/-- A concrete rank-2 operand for the accumulation witness. -/
def cA3 : SparseTensor ℤ :=
  ⟨[⟨[q0, q0], ⟨[1, 1], [2]⟩⟩], .TwoSiteMPSTensor, none⟩

/-- A concrete rank-3 operand for the accumulation witness. -/
def cB3 : SparseTensor ℤ :=
  ⟨[⟨[q0, q0, q0], ⟨[1, 1, 1], [5]⟩⟩], .ThreeIndexMPSTensor, none⟩

/-- The contraction of `cA3` and `cB3` on their first legs. -/
def w3 : SparseTensor ℤ :=
  ⟨[⟨[q0, q0, q0], ⟨[1, 1, 1], [10]⟩⟩], .ThreeIndexMPSTensor, none⟩

/-- Witness for C3 at a concrete contraction whose result is a tensor. -/
theorem C3_contract_accumulates_witness :
    SparseTensor.contract cA3 cB3 [0] [0] = .ok (.inr w3) ∧
    w3.blocks = (contractOutMap cA3 cB3 [0] [0]).map (·.2) :=
  ⟨by decide, (C3_contract_accumulates cA3 cB3 [0] [0] []).2 w3 (by decide)⟩

/-- A value stored in `insertAppend`'s result was stored before or is the
newly appended block. -/
theorem mem_insertAppend_values {R : Type}
    (m : List (List SZ × List (SubTensor R))) (key : List SZ)
    (blk bb : SubTensor R)
    (h : bb ∈ (insertAppend m key blk).flatMap (·.2)) :
    bb ∈ m.flatMap (·.2) ∨ bb = blk := by
  induction m with
  | nil =>
    rw [show insertAppend [] key blk = [(key, [blk])] from rfl] at h
    right
    simpa using h
  | cons kv rest ih =>
    obtain ⟨k, v⟩ := kv
    rw [show insertAppend ((k, v) :: rest) key blk =
        (if k = key then (k, v ++ [blk]) :: rest
         else (k, v) :: insertAppend rest key blk) from rfl] at h
    by_cases hk : k = key
    · rw [if_pos hk, List.flatMap_cons] at h
      rcases List.mem_append.mp h with h1 | h1
      · rcases List.mem_append.mp h1 with h2 | h2
        · exact Or.inl (by
            rw [List.flatMap_cons]
            exact List.mem_append.mpr (Or.inl h2))
        · exact Or.inr (by simpa using h2)
      · exact Or.inl (by
          rw [List.flatMap_cons]
          exact List.mem_append.mpr (Or.inr h1))
    · rw [if_neg hk, List.flatMap_cons] at h
      rcases List.mem_append.mp h with h1 | h1
      · exact Or.inl (by
          rw [List.flatMap_cons]
          exact List.mem_append.mpr (Or.inl h1))
      · rcases ih h1 with h2 | h2
        · exact Or.inl (by
            rw [List.flatMap_cons]
            exact List.mem_append.mpr (Or.inr h2))
        · exact Or.inr h2

/-- Every value stored in `map_idx_b` is a block of the indexed collection. -/
theorem buildMapB_values_aux {R : Type} (idxb : List ℕ) (bb : SubTensor R) :
    ∀ (blocks : List (SubTensor R)) (m : List (List SZ × List (SubTensor R))),
      bb ∈ (blocks.foldl
        (fun m blk => insertAppend m (selectLabels blk.q_labels idxb) blk)
        m).flatMap (·.2) →
      bb ∈ m.flatMap (·.2) ∨ bb ∈ blocks := by
  intro blocks
  induction blocks with
  | nil => intro m h; exact Or.inl h
  | cons blk rest ih =>
    intro m h
    rcases ih _ h with h2 | h2
    · rcases mem_insertAppend_values _ _ _ _ h2 with h3 | h3
      · exact Or.inl h3
      · exact Or.inr (by simp [h3])
    · exact Or.inr (by simp [h2])

/-- A block looked up in `map_idx_b` is a block of the indexed collection. -/
theorem lookupKey_buildMapB_mem {R : Type} (blocks : List (SubTensor R))
    (idxb : List ℕ) (key : List SZ) (bbs : List (SubTensor R))
    (h : lookupKey (buildMapB blocks idxb) key = some bbs)
    (bb : SubTensor R) (hbb : bb ∈ bbs) : bb ∈ blocks := by
  have hval : bb ∈ (buildMapB blocks idxb).flatMap (·.2) := by
    unfold lookupKey at h
    cases hf : (buildMapB blocks idxb).find? (fun kv => kv.1 == key) with
    | none => rw [hf] at h; cases h
    | some kv =>
      rw [hf] at h
      cases h
      exact List.mem_flatMap.mpr ⟨kv, List.mem_of_find?_eq_some hf, hbb⟩
  rcases buildMapB_values_aux idxb bb blocks [] hval with h2 | h2
  · simp at h2
  · exact h2

/-- A full tensordot (no free legs on either operand) yields a rank-0 array
with exactly one stored value. -/
theorem tensordot_full {R : Type} [LinearOrderedCommRing R] (a b : NDArray R)
    (idxa idxb : List ℕ)
    (hA : (List.range a.shape.length).filter (fun p => !(idxa.contains p)) = [])
    (hB : (List.range b.shape.length).filter (fun p => !(idxb.contains p)) = []) :
    (tensordot a b idxa idxb).shape = [] ∧
    ∃ v, (tensordot a b idxa idxb).data = [v] := by
  simp only [tensordot, hA, hB]
  exact ⟨rfl, _, rfl⟩

/-- Under full contraction, every contribution of `contract` has the empty
output label tuple and a single stored value. -/
theorem contractPairs_full_spec {R : Type} [LinearOrderedCommRing R]
    (spta sptb : SparseTensor R) (idxa0 idxb0 : List ℤ)
    (ha : outIdx (SparseTensor.rankOf spta.blocks)
      (idxa0.map (normIdx (SparseTensor.rankOf spta.blocks))) = [])
    (hb : outIdx (SparseTensor.rankOf sptb.blocks)
      (idxb0.map (normIdx (SparseTensor.rankOf sptb.blocks))) = [])
    (hsa : ∀ b ∈ spta.blocks,
      b.reduced.shape.length = SparseTensor.rankOf spta.blocks)
    (hsb : ∀ b ∈ sptb.blocks,
      b.reduced.shape.length = SparseTensor.rankOf sptb.blocks) :
    ∀ p ∈ contractPairs spta sptb idxa0 idxb0,
      p.1 = [] ∧ p.2.shape = [] ∧ ∃ v, p.2.data = [v] := by
  intro p hp
  simp only [contractPairs] at hp
  rcases List.mem_flatMap.mp hp with ⟨ba, hba, hpa⟩
  unfold pairsOfA at hpa
  split at hpa
  · simp at hpa
  · rename_i bbs heq
    rcases List.mem_map.mp hpa with ⟨bb, hbb, hpeq⟩
    have hbbB : bb ∈ sptb.blocks := lookupKey_buildMapB_mem _ _ _ _ heq _ hbb
    have hA : (List.range ba.reduced.shape.length).filter
        (fun p => !((idxa0.map (normIdx (SparseTensor.rankOf spta.blocks))).contains p)) = [] := by
      rw [hsa ba hba]
      exact ha
    have hB : (List.range bb.reduced.shape.length).filter
        (fun p => !((idxb0.map (normIdx (SparseTensor.rankOf sptb.blocks))).contains p)) = [] := by
      rw [hsb bb hbbB]
      exact hb
    have hfull := tensordot_full ba.reduced bb.reduced
      (idxa0.map (normIdx (SparseTensor.rankOf spta.blocks)))
      (idxb0.map (normIdx (SparseTensor.rankOf sptb.blocks))) hA hB
    subst hpeq
    refine ⟨by simp [selectLabels, ha, hb], ?_⟩
    split
    · refine ⟨by simp [NDArray.neg, hfull.1], ?_⟩
      obtain ⟨v, hv⟩ := hfull.2
      exact ⟨-v, by simp [NDArray.neg, hv]⟩
    · exact hfull

/-- `addToOut` never yields an empty map. -/
theorem addToOut_ne_nil {R : Type} [LinearOrderedCommRing R]
    (m : List (List SZ × SubTensor R)) (key : List SZ) (mat : NDArray R) :
    addToOut m key mat ≠ [] := by
  cases m with
  | nil => simp [addToOut]
  | cons kst rest =>
    obtain ⟨k, st⟩ := kst
    by_cases h : k = key <;> simp [addToOut, h]

/-- The accumulation fold preserves nonemptiness. -/
theorem foldl_addToOut_ne_nil {R : Type} [LinearOrderedCommRing R]
    (pairs : List (List SZ × NDArray R)) (m : List (List SZ × SubTensor R))
    (hm : m ≠ []) :
    pairs.foldl (fun m km => addToOut m km.1 km.2) m ≠ [] := by
  induction pairs generalizing m with
  | nil => exact hm
  | cons p ps ih => exact ih _ (addToOut_ne_nil _ _ _)

/-- The single value of a fold of single-value arrays is the sum of the
single values. -/
theorem item_foldl_add {R : Type} [LinearOrderedCommRing R]
    (ms : List (NDArray R)) (m0 : NDArray R) (h0 : ∃ v, m0.data = [v])
    (hms : ∀ m ∈ ms, ∃ v, m.data = [v]) :
    (ms.foldl NDArray.add m0).item = m0.item + (ms.map NDArray.item).sum := by
  induction ms generalizing m0 with
  | nil => simp
  | cons m ms ih =>
    obtain ⟨v0, hv0⟩ := h0
    obtain ⟨v, hv⟩ := hms m (by simp)
    have hadd : (m0.add m).data = [v0 + v] := by simp [NDArray.add, hv0, hv]
    rw [List.foldl_cons, ih (m0.add m) ⟨v0 + v, hadd⟩
      (fun x hx => hms x (by simp [hx]))]
    simp [NDArray.item, hadd, hv0, hv]
    ring

/-- C5: when the contracted legs cover all legs of both operands (no output
legs remain), `contract` returns a plain scalar rather than a block
collection — the accumulated sum of the per-pair scalar contributions — and
in particular `0.0` when no block pair matched on the contracted labels. -/
theorem C5_full_contraction_scalar {R : Type} [LinearOrderedCommRing R]
    (spta sptb : SparseTensor R) (idxa0 idxb0 : List ℤ)
    (hlen : idxa0.length = idxb0.length)
    (ha : outIdx (SparseTensor.rankOf spta.blocks)
      (idxa0.map (normIdx (SparseTensor.rankOf spta.blocks))) = [])
    (hb : outIdx (SparseTensor.rankOf sptb.blocks)
      (idxb0.map (normIdx (SparseTensor.rankOf sptb.blocks))) = [])
    (hsa : ∀ b ∈ spta.blocks,
      b.reduced.shape.length = SparseTensor.rankOf spta.blocks)
    (hsb : ∀ b ∈ sptb.blocks,
      b.reduced.shape.length = SparseTensor.rankOf sptb.blocks) :
    SparseTensor.contract spta sptb idxa0 idxb0 =
      .ok (.inl (((contractPairs spta sptb idxa0 idxb0).map
        (fun km => km.2.item)).sum)) ∧
    (contractPairs spta sptb idxa0 idxb0 = [] →
      SparseTensor.contract spta sptb idxa0 idxb0 = .ok (.inl 0)) := by
  have hspec := contractPairs_full_spec spta sptb idxa0 idxb0 ha hb hsa hsb
  have hmain : SparseTensor.contract spta sptb idxa0 idxb0 =
      .ok (.inl (((contractPairs spta sptb idxa0 idxb0).map
        (fun km => km.2.item)).sum)) := by
    simp only [SparseTensor.contract]
    rw [if_neg (by simp [hlen])]
    rw [ha, hb]
    rw [if_pos (by simp)]
    cases hp : contractPairs spta sptb idxa0 idxb0 with
    | nil =>
      have hout : contractOutMap spta sptb idxa0 idxb0 = [] := by
        simp [contractOutMap, hp]
      rw [hout]
      simp
    | cons p ps =>
      have hne : contractOutMap spta sptb idxa0 idxb0 ≠ [] := by
        rw [contractOutMap, hp, List.foldl_cons]
        exact foldl_addToOut_ne_nil ps _ (addToOut_ne_nil _ _ _)
      rw [if_neg (by simpa using fun hh => hne (List.length_eq_zero.mp hh))]
      have hkeys : ∀ km ∈ contractPairs spta sptb idxa0 idxb0,
          (km.1 == ([] : List SZ)) = true := by
        intro km hkm
        simpa using (hspec km hkm).1
      have hlook : lookupOut (contractOutMap spta sptb idxa0 idxb0) [] =
          combineOut none []
            ((contractPairs spta sptb idxa0 idxb0).map (·.2)) := by
        rw [contractOutMap, foldl_addToOut, List.filter_eq_self.mpr hkeys]
        rfl
      rw [hp, List.map_cons] at hlook
      rw [show combineOut none ([] : List SZ) (p.2 :: ps.map (·.2)) =
          some ⟨[], (ps.map (·.2)).foldl NDArray.add p.2⟩ from rfl] at hlook
      rw [hlook]
      have hitem : ((ps.map (·.2)).foldl NDArray.add p.2).item =
          p.2.item + ((ps.map (·.2)).map NDArray.item).sum :=
        item_foldl_add _ _ (hspec p (by rw [hp]; simp)).2.2 (fun m hm => by
          rcases List.mem_map.mp hm with ⟨km, hkm, hmeq⟩
          rw [← hmeq]
          exact (hspec km (by rw [hp]; simp [hkm])).2.2)
      simp [hitem, List.map_map]
      rfl
  exact ⟨hmain, fun h => by rw [hmain, h]; simp⟩

/-- A concrete 1×1 single-leg block collection. -/
def cS : SparseTensor ℤ := ⟨[⟨[q0], ⟨[1], [3]⟩⟩], .Scalar, none⟩

/-- Witness for C5: fully contracting the 1×1 single-block collection `cS`
against itself returns the plain scalar `3 * 3`. -/
theorem C5_full_contraction_scalar_witness :
    outIdx (SparseTensor.rankOf cS.blocks)
      ([(0 : ℤ)].map (normIdx (SparseTensor.rankOf cS.blocks))) = [] ∧
    SparseTensor.contract cS cS [0] [0] =
      .ok (.inl (((contractPairs cS cS [0] [0]).map
        (fun km => km.2.item)).sum)) ∧
    SparseTensor.contract cS cS [0] [0] = .ok (.inl (3 * 3)) :=
  ⟨by decide,
   (C5_full_contraction_scalar cS cS [0] [0] rfl (by decide) (by decide)
     (by decide) (by decide)).1,
   by decide⟩

/-- Membership in a key-deduplicating fold (the way Python's dict collects
its insertion-ordered keys). -/
theorem foldl_dedup_mem {α β : Type} [BEq β] [LawfulBEq β] (key : α → β) :
    ∀ (l : List α) (acc : List β) (x : β),
      x ∈ l.foldl (fun acc a =>
        if acc.contains (key a) then acc else acc ++ [key a]) acc ↔
      x ∈ acc ∨ ∃ a ∈ l, key a = x := by
  intro l
  induction l with
  | nil => intro acc x; simp
  | cons a rest ih =>
    intro acc x
    rw [List.foldl_cons]
    by_cases hc : acc.contains (key a)
    · rw [if_pos hc, ih]
      constructor
      · rintro (hx | ⟨a', ha', he⟩)
        · exact Or.inl hx
        · exact Or.inr ⟨a', List.mem_cons_of_mem _ ha', he⟩
      · rintro (hx | ⟨a', ha', he⟩)
        · exact Or.inl hx
        · rcases List.mem_cons.mp ha' with he2 | ha2
          · subst he2
            subst he
            exact Or.inl (by simpa using hc)
          · exact Or.inr ⟨a', ha2, he⟩
    · rw [if_neg hc, ih]
      constructor
      · rintro (hx | ⟨a', ha', he⟩)
        · rcases List.mem_append.mp hx with hx2 | hx2
          · exact Or.inl hx2
          · exact Or.inr ⟨a, List.mem_cons_self _ _,
              (List.mem_singleton.mp hx2).symm⟩
        · exact Or.inr ⟨a', List.mem_cons_of_mem _ ha', he⟩
      · rintro (hx | ⟨a', ha', he⟩)
        · exact Or.inl (List.mem_append.mpr (Or.inl hx))
        · rcases List.mem_cons.mp ha' with he2 | ha2
          · subst he2
            subst he
            exact Or.inl (List.mem_append.mpr (Or.inr (by simp)))
          · exact Or.inr ⟨a', ha2, he⟩

/-- A key-deduplicating fold keeps its accumulator duplicate-free. -/
theorem foldl_dedup_nodup {α β : Type} [BEq β] [LawfulBEq β] (key : α → β) :
    ∀ (l : List α) (acc : List β), acc.Nodup →
      (l.foldl (fun acc a =>
        if acc.contains (key a) then acc else acc ++ [key a]) acc).Nodup := by
  intro l
  induction l with
  | nil => intro acc h; exact h
  | cons a rest ih =>
    intro acc h
    rw [List.foldl_cons]
    by_cases hc : acc.contains (key a)
    · rw [if_pos hc]
      exact ih acc h
    · rw [if_neg hc]
      refine ih _ ?_
      rw [List.nodup_append]
      refine ⟨h, List.nodup_singleton _, ?_⟩
      intro x hx hx2
      rw [List.mem_singleton.mp hx2] at hx
      exact hc (by simpa using hx)

/-- A label is a group key iff some block carries it on its last leg. -/
theorem mem_groupLabelsLast {R : Type} (blocks : List (SubTensor R)) (x : SZ) :
    x ∈ groupLabelsLast blocks ↔
      ∃ b ∈ blocks, b.q_labels.getLastD default = x := by
  have h := foldl_dedup_mem
    (fun b : SubTensor R => b.q_labels.getLastD default) blocks [] x
  rw [show groupLabelsLast blocks = blocks.foldl (fun acc b =>
    if acc.contains (b.q_labels.getLastD default) then acc
    else acc ++ [b.q_labels.getLastD default]) [] from rfl]
  rw [h]
  simp

/-- The collected group keys are distinct. -/
theorem groupLabelsLast_nodup {R : Type} (blocks : List (SubTensor R)) :
    (groupLabelsLast blocks).Nodup := by
  rw [show groupLabelsLast blocks = blocks.foldl (fun acc b =>
    if acc.contains (b.q_labels.getLastD default) then acc
    else acc ++ [b.q_labels.getLastD default]) [] from rfl]
  exact foldl_dedup_nodup _ blocks [] List.nodup_nil

/-- `flatMap` of chunks that vanish away from one key of a duplicate-free
list collapses to that key's chunk. -/
theorem flatMap_if_single {α β : Type} [DecidableEq α] (l : List α) (q : α)
    (f : α → List β) (hl : l.Nodup) (hq : q ∈ l) :
    (l.flatMap (fun a => if a = q then f a else [])) = f q := by
  induction l with
  | nil => cases hq
  | cons a rest ih =>
    rw [List.flatMap_cons]
    rcases List.nodup_cons.mp hl with ⟨hna, hrest⟩
    by_cases haq : a = q
    · subst haq
      rw [if_pos rfl]
      have hzero : rest.flatMap (fun a' => if a' = a then f a' else []) = [] :=
        List.flatMap_eq_nil_iff.mpr (fun a' ha' =>
          if_neg (fun he : a' = a => hna (he ▸ ha')))
      rw [hzero, List.append_nil]
    · rw [if_neg haq, List.nil_append]
      rcases List.mem_cons.mp hq with he | hq2
      · exact absurd he.symm haq
      · exact ih hrest hq2

/-- Filtering distributes over `flatMap`. -/
theorem filter_flatMap {α β : Type} (l : List α) (f : α → List β) (p : β → Bool) :
    (l.flatMap f).filter p = l.flatMap (fun a => (f a).filter p) := by
  induction l with
  | nil => rfl
  | cons a l ih => simp [List.flatMap_cons, List.filter_append, ih]

/-- Looking up the carry map built over the group keys. -/
theorem lookupMat_map_keys {R : Type} (labels : List SZ) (g : SZ → NDArray R)
    (q : SZ) (hq : q ∈ labels) :
    lookupMat (labels.map (fun q' => (q', g q'))) q = some (g q) := by
  induction labels with
  | nil => cases hq
  | cons a rest ih =>
    by_cases ha : a = q
    · subst ha
      simp [lookupMat, List.find?_cons_of_pos]
    · have hb : ((a, g a).1 == q) = false := by simpa using ha
      rw [List.map_cons]
      rw [show lookupMat ((a, g a) :: rest.map (fun q' => (q', g q'))) q =
          lookupMat (rest.map (fun q' => (q', g q'))) q from by
        simp [lookupMat, List.find?_cons_of_neg, hb]]
      rcases List.mem_cons.mp hq with he | hq2
      · exact absurd he.symm ha
      · exact ih hq2

/-- Every block written back by `leftCanonGroup` keeps its labels; in
particular its last-leg label is the group's key. -/
theorem leftCanonGroup_lastLabel {R : Type}
    (qrFn : NDArray R → NDArray R × NDArray R)
    (blocks : List (SubTensor R)) (q' : SZ) (b' : SubTensor R)
    (hb' : b' ∈ leftCanonGroup qrFn (groupOfLast blocks q')) :
    b'.q_labels.getLastD default = q' := by
  simp only [leftCanonGroup] at hb'
  rcases List.mem_map.mp hb' with ⟨bp, hbp, hbe⟩
  have hfst : bp.1 ∈ groupOfLast blocks q' := (List.of_mem_zip hbp).1
  have hlast : (bp.1.q_labels.getLastD default == q') = true :=
    (List.mem_filter.mp hfst).2
  rw [← hbe]
  simpa using hlast

/-- Grouping the canonicalized collection by a boundary label recovers that
group's written-back blocks. -/
theorem groupOfLast_leftCanon {R : Type}
    (qrFn : NDArray R → NDArray R × NDArray R)
    (t : SparseTensor R) (q : SZ) (hq : q ∈ groupLabelsLast t.blocks) :
    groupOfLast (left_canonicalize qrFn t).1 q =
      leftCanonGroup qrFn (groupOfLast t.blocks q) := by
  show ((groupLabelsLast t.blocks).flatMap
    (fun q' => leftCanonGroup qrFn (groupOfLast t.blocks q'))).filter
      (fun b => b.q_labels.getLastD default == q) = _
  rw [filter_flatMap]
  have hcongr : ∀ q' ∈ groupLabelsLast t.blocks,
      (leftCanonGroup qrFn (groupOfLast t.blocks q')).filter
        (fun b => b.q_labels.getLastD default == q) =
      (if q' = q then leftCanonGroup qrFn (groupOfLast t.blocks q') else []) := by
    intro q' hq'
    by_cases hqq : q' = q
    · subst hqq
      rw [if_pos rfl]
      apply List.filter_eq_self.mpr
      intro b' hb'
      simpa using leftCanonGroup_lastLabel qrFn t.blocks q' b' hb'
    · rw [if_neg hqq]
      apply List.filter_eq_nil_iff.mpr
      intro b' hb'
      have hlast := leftCanonGroup_lastLabel qrFn t.blocks q' b' hb'
      simp only [beq_iff_eq, hlast]
      exact hqq
  rw [List.flatMap_congr hcongr]
  exact flatMap_if_single _ _ _ (groupLabelsLast_nodup t.blocks) hq

/-- `splitRows` produces one piece per requested row count. -/
theorem splitRows_length {R : Type} (c : ℕ) :
    ∀ (rs : List ℕ) (d : List R), (splitRows d c rs).length = rs.length := by
  intro rs
  induction rs with
  | nil => intro d; rfl
  | cons r rest ih => intro d; simp [splitRows, ih]

/-- Joining the split pieces recovers the data when the lengths agree. -/
theorem splitRows_flatten {R : Type} (c : ℕ) :
    ∀ (rs : List ℕ) (d : List R), d.length = rs.sum * c →
      (splitRows d c rs).flatten = d := by
  intro rs
  induction rs with
  | nil =>
    intro d hd
    simp only [List.sum_nil, Nat.zero_mul] at hd
    rw [List.length_eq_zero.mp hd]
    rfl
  | cons r rest ih =>
    intro d hd
    rw [splitRows, List.flatten_cons]
    have hdrop : (d.drop (r * c)).length = rest.sum * c := by
      rw [List.length_drop, hd, List.sum_cons, Nat.add_mul,
        Nat.add_sub_cancel_left]
    rw [ih _ hdrop, List.take_append_drop]

/-- The written-back blocks flatten to the same row counts. -/
theorem flatRows_canonBlock {R : Type} (c : ℕ) (bp : SubTensor R × List R) :
    flatRows (canonBlock c bp) = flatRows bp.1 := by
  simp [flatRows, canonBlock]

/-- Stacking a canonicalized group reproduces the `Q` factor handed back by
the QR routine, provided `Q` has the economy shape
`(stacked rows) × (rows of R)` and consistently sized data. -/
theorem stackMat_leftCanonGroup {R : Type} [LinearOrderedCommRing R]
    (qrFn : NDArray R → NDArray R × NDArray R) (blks : List (SubTensor R))
    (hne : blks ≠ [])
    (hshapeQ : (qrFn (stackMat blks)).1.shape =
      [(stackMat blks).shape.getD 0 0, (qrFn (stackMat blks)).2.shape.getD 0 0])
    (hdataQ : (qrFn (stackMat blks)).1.data.length =
      (qrFn (stackMat blks)).1.shape.prod) :
    stackMat (leftCanonGroup qrFn blks) = (qrFn (stackMat blks)).1 := by
  have hqc : (qrFn (stackMat blks)).1.shape.getD 1 0 =
      (qrFn (stackMat blks)).2.shape.getD 0 0 := by
    rw [hshapeQ]
    rfl
  have hlenp : (splitRows (qrFn (stackMat blks)).1.data
      ((qrFn (stackMat blks)).1.shape.getD 1 0) (blks.map flatRows)).length =
      blks.length := by
    rw [splitRows_length, List.length_map]
  have hdata2 : (qrFn (stackMat blks)).1.data.length =
      (blks.map flatRows).sum * ((qrFn (stackMat blks)).1.shape.getD 1 0) := by
    rw [hdataQ, hshapeQ]
    simp [stackMat]
  have hflat : (splitRows (qrFn (stackMat blks)).1.data
      ((qrFn (stackMat blks)).1.shape.getD 1 0) (blks.map flatRows)).flatten =
      (qrFn (stackMat blks)).1.data :=
    splitRows_flatten _ _ _ hdata2
  have hcompfr : flatRows ∘ canonBlock (R := R)
      ((qrFn (stackMat blks)).2.shape.getD 0 0) = flatRows ∘ Prod.fst :=
    funext (fun bp => flatRows_canonBlock _ bp)
  have hcompdata : (fun b : SubTensor R => b.reduced.data) ∘ canonBlock (R := R)
      ((qrFn (stackMat blks)).2.shape.getD 0 0) = Prod.snd :=
    funext (fun bp => rfl)
  have hmapfr : (leftCanonGroup qrFn blks).map flatRows = blks.map flatRows := by
    simp only [leftCanonGroup, List.map_map]
    rw [hcompfr, ← List.map_map, List.map_fst_zip _ _ (le_of_eq hlenp.symm)]
  have hmapdata : (leftCanonGroup qrFn blks).map (fun b => b.reduced.data) =
      splitRows (qrFn (stackMat blks)).1.data
        ((qrFn (stackMat blks)).1.shape.getD 1 0) (blks.map flatRows) := by
    simp only [leftCanonGroup, List.map_map]
    rw [hcompdata, List.map_snd_zip _ _ (le_of_eq hlenp)]
  obtain ⟨b0, bt, hbl⟩ := List.exists_cons_of_ne_nil hne
  have hhead : (leftCanonGroup qrFn blks).headI.reduced.shape.getLastD 1 =
      (qrFn (stackMat blks)).2.shape.getD 0 0 := by
    rw [hbl]
    rw [show leftCanonGroup qrFn (b0 :: bt) =
      ((b0 :: bt).zip (splitRows (qrFn (stackMat (b0 :: bt))).1.data
        ((qrFn (stackMat (b0 :: bt))).1.shape.getD 1 0)
        ((b0 :: bt).map flatRows))).map
          (canonBlock ((qrFn (stackMat (b0 :: bt))).2.shape.getD 0 0)) from rfl]
    simp only [List.map_cons, splitRows, List.zip_cons_cons, List.headI]
    simp [canonBlock]
  show (⟨[((leftCanonGroup qrFn blks).map flatRows).sum,
    (leftCanonGroup qrFn blks).headI.reduced.shape.getLastD 1],
    ((leftCanonGroup qrFn blks).map (fun b => b.reduced.data)).flatten⟩ :
      NDArray R) = (qrFn (stackMat blks)).1
  rw [hmapfr, hhead, hmapdata, hflat]
  have h1 : [(blks.map flatRows).sum, (qrFn (stackMat blks)).2.shape.getD 0 0] =
      (qrFn (stackMat blks)).1.shape := hshapeQ.symm
  rw [h1]

/-- C6: under the mathematical contract of the external QR routine — economy
shapes, `Qᵀ Q = I`, `Q R = M` — after `left_canonicalize` every boundary
label's group of updated blocks, flattened over leading legs and stacked
row-wise, is exactly that `Q` (hence column-orthonormal), the returned carry
entry for the group is exactly `R`, and multiplying the carry back into the
stacked blocks reproduces the group's original stacked matrix. -/
theorem C6_left_canonicalize_orthonormal {R : Type} [LinearOrderedCommRing R]
    (qrFn : NDArray R → NDArray R × NDArray R) (t : SparseTensor R) (q : SZ)
    (hq : q ∈ groupLabelsLast t.blocks)
    (hshapeQ : (qrFn (stackMat (groupOfLast t.blocks q))).1.shape =
      [(stackMat (groupOfLast t.blocks q)).shape.getD 0 0,
       (qrFn (stackMat (groupOfLast t.blocks q))).2.shape.getD 0 0])
    (hdataQ : (qrFn (stackMat (groupOfLast t.blocks q))).1.data.length =
      (qrFn (stackMat (groupOfLast t.blocks q))).1.shape.prod)
    (horth : matmul (transposeM (qrFn (stackMat (groupOfLast t.blocks q))).1)
        (qrFn (stackMat (groupOfLast t.blocks q))).1 =
      idMat ((qrFn (stackMat (groupOfLast t.blocks q))).2.shape.getD 0 0))
    (hfact : matmul (qrFn (stackMat (groupOfLast t.blocks q))).1
        (qrFn (stackMat (groupOfLast t.blocks q))).2 =
      stackMat (groupOfLast t.blocks q)) :
    stackMat (groupOfLast (left_canonicalize qrFn t).1 q) =
      (qrFn (stackMat (groupOfLast t.blocks q))).1 ∧
    matmul (transposeM (stackMat (groupOfLast (left_canonicalize qrFn t).1 q)))
        (stackMat (groupOfLast (left_canonicalize qrFn t).1 q)) =
      idMat ((qrFn (stackMat (groupOfLast t.blocks q))).2.shape.getD 0 0) ∧
    lookupMat (left_canonicalize qrFn t).2 q =
      some (qrFn (stackMat (groupOfLast t.blocks q))).2 ∧
    matmul (stackMat (groupOfLast (left_canonicalize qrFn t).1 q))
        (qrFn (stackMat (groupOfLast t.blocks q))).2 =
      stackMat (groupOfLast t.blocks q) := by
  have hgne : groupOfLast t.blocks q ≠ [] := by
    rcases (mem_groupLabelsLast t.blocks q).mp hq with ⟨b, hb, he⟩
    exact List.ne_nil_of_mem (List.mem_filter.mpr ⟨hb, by simpa using he⟩)
  have h1 : stackMat (groupOfLast (left_canonicalize qrFn t).1 q) =
      (qrFn (stackMat (groupOfLast t.blocks q))).1 := by
    rw [groupOfLast_leftCanon qrFn t q hq]
    exact stackMat_leftCanonGroup qrFn _ hgne hshapeQ hdataQ
  refine ⟨h1, ?_, ?_, ?_⟩
  · rw [h1]
    exact horth
  · show lookupMat ((groupLabelsLast t.blocks).map
      (fun q' => (q', (qrFn (stackMat (groupOfLast t.blocks q'))).2))) q = _
    exact lookupMat_map_keys _ _ _ hq
  · rw [h1]
    exact hfact

/-- A concrete stand-in for `np.linalg.qr` at the witness input: the stacked
matrix below is already column-orthonormal, so `Q` is the matrix itself and
`R` the 2×2 identity. -/
def cQr : NDArray ℤ → NDArray ℤ × NDArray ℤ := fun m => (m, idMat 2)

/-- A concrete one-block collection whose stacked group matrix is the 2×2
identity. -/
def cT6 : SparseTensor ℤ :=
  ⟨[⟨[q0, q0], ⟨[2, 2], [1, 0, 0, 1]⟩⟩], .Scalar, none⟩

/-- Witness for C6 at the concrete collection `cT6` and QR stand-in `cQr`. -/
theorem C6_left_canonicalize_orthonormal_witness :
    (q0 ∈ groupLabelsLast cT6.blocks) ∧
    (matmul (transposeM (cQr (stackMat (groupOfLast cT6.blocks q0))).1)
        (cQr (stackMat (groupOfLast cT6.blocks q0))).1 =
      idMat ((cQr (stackMat (groupOfLast cT6.blocks q0))).2.shape.getD 0 0)) ∧
    stackMat (groupOfLast (left_canonicalize cQr cT6).1 q0) =
      (cQr (stackMat (groupOfLast cT6.blocks q0))).1 ∧
    lookupMat (left_canonicalize cQr cT6).2 q0 =
      some (cQr (stackMat (groupOfLast cT6.blocks q0))).2 :=
  ⟨by decide, by decide,
   (C6_left_canonicalize_orthonormal cQr cT6 q0 (by decide) (by decide)
     (by decide) (by decide) (by decide)).1,
   (C6_left_canonicalize_orthonormal cQr cT6 q0 (by decide) (by decide)
     (by decide) (by decide) (by decide)).2.2.1⟩

/-- Membership in the flattened singular-value enumeration. -/
theorem mem_ssList {R : Type} [LinearOrderedCommRing R]
    (svd_s : List (List R)) (x : SVTriple R) :
    x ∈ ssList svd_s ↔
      x.1 < svd_s.length ∧ x.2.1 < (svd_s.getD x.1 []).length ∧
      x.2.2 = (svd_s.getD x.1 []).getD x.2.1 0 := by
  obtain ⟨i, j, v⟩ := x
  simp only [ssList, List.mem_flatMap, List.mem_map, List.mem_range]
  constructor
  · rintro ⟨i', hi', j', hj', he⟩
    cases he
    exact ⟨hi', hj', rfl⟩
  · rintro ⟨hi, hj, hv⟩
    exact ⟨i, hi, j, ⟨hj, by rw [hv]⟩⟩

/-- Everything surviving `ss_trunc` is an enumerated entry above the
cutoff. -/
theorem mem_ssTrunc_imp {R : Type} [LinearOrderedCommRing R]
    (svd_s : List (List R)) (k : ℤ) (cutoff : R) (x : SVTriple R)
    (hx : x ∈ ssTrunc svd_s k cutoff) :
    x ∈ ssList svd_s ∧ cutoff ≤ x.2.2 := by
  rw [ssTrunc] at hx
  have hst : x ∈ (List.insertionSort svDesc (ssList svd_s)).filter
      (fun y => cutoff ≤ y.2.2) := by
    split at hx
    · exact hx
    · rw [pySlice] at hx
      split at hx
      · exact List.take_subset _ _ hx
      · exact List.take_subset _ _ hx
  have hm := List.mem_filter.mp hst
  exact ⟨(List.mem_insertionSort _).mp hm.1, by simpa using hm.2⟩

/-- Reading an in-range entry of a `range`-indexed map. -/
theorem getD_map_range {β : Type} (n : ℕ) (f : ℕ → β) (d : β) (i : ℕ)
    (hi : i < n) : ((List.range n).map f).getD i d = f i := by
  rw [List.getD_eq_getElem?_getD, List.getElem?_eq_getElem (by simpa using hi)]
  simp

/-- Reading an out-of-range entry of a `range`-indexed map. -/
theorem getD_map_range_ge {β : Type} (n : ℕ) (f : ℕ → β) (d : β) (i : ℕ)
    (hi : n ≤ i) : ((List.range n).map f).getD i d = d := by
  rw [List.getD_eq_getElem?_getD, List.getElem?_eq_none (by simpa using hi)]
  rfl

/-- The `gls` entry of an in-range group. -/
theorem glsOf_getD {R : Type} [LinearOrderedCommRing R]
    (svd_s : List (List R)) (k : ℤ) (cutoff : R) (i : ℕ)
    (hi : i < svd_s.length) :
    (glsOf svd_s k cutoff).getD i none =
      (if (((ssKept svd_s k cutoff).filter (fun x => x.1 == i)).map
          (fun x => x.2.1)).isEmpty then none
       else some (((ssKept svd_s k cutoff).filter (fun x => x.1 == i)).map
          (fun x => x.2.1))) :=
  getD_map_range _ _ _ _ hi

/-- The `gls` entry of an out-of-range group. -/
theorem glsOf_getD_ge {R : Type} [LinearOrderedCommRing R]
    (svd_s : List (List R)) (k : ℤ) (cutoff : R) (i : ℕ)
    (hi : svd_s.length ≤ i) :
    (glsOf svd_s k cutoff).getD i none = none :=
  getD_map_range_ge _ _ _ _ hi

/-- `keptIdx` of an in-range group reads the group's kept-index list. -/
theorem keptIdx_eq {R : Type} [LinearOrderedCommRing R]
    (svd_s : List (List R)) (k : ℤ) (cutoff : R) (i j : ℕ)
    (hi : i < svd_s.length) :
    keptIdx svd_s k cutoff i j =
      (((ssKept svd_s k cutoff).filter (fun x => x.1 == i)).map
        (fun x => x.2.1)).contains j := by
  rw [keptIdx, glsOf_getD svd_s k cutoff i hi]
  by_cases hemp : (((ssKept svd_s k cutoff).filter (fun x => x.1 == i)).map
      (fun x => x.2.1)).isEmpty
  · rw [if_pos hemp]
    have h0 : (((ssKept svd_s k cutoff).filter (fun x => x.1 == i)).map
        (fun x => x.2.1)) = [] := List.isEmpty_iff.mp hemp
    rw [h0]
    rfl
  · rw [if_neg hemp]

/-- The returned `gls` keep an entry exactly when the corresponding triple
survives `ss_trunc`. -/
theorem keptIdx_iff {R : Type} [LinearOrderedCommRing R]
    (svd_s : List (List R)) (k : ℤ) (cutoff : R) (i j : ℕ) :
    keptIdx svd_s k cutoff i j = true ↔
      (i, j, (svd_s.getD i []).getD j 0) ∈ ssTrunc svd_s k cutoff := by
  constructor
  · intro h
    by_cases hi : i < svd_s.length
    · rw [keptIdx_eq svd_s k cutoff i j hi] at h
      have hj : j ∈ ((ssKept svd_s k cutoff).filter
          (fun x => x.1 == i)).map (fun x => x.2.1) := by simpa using h
      rcases List.mem_map.mp hj with ⟨x, hxf, hxe⟩
      have hx1 : x.1 = i := by simpa using (List.mem_filter.mp hxf).2
      have hxT : x ∈ ssTrunc svd_s k cutoff :=
        (List.mem_insertionSort _).mp (List.mem_filter.mp hxf).1
      have hxL := (mem_ssList svd_s x).mp (mem_ssTrunc_imp _ _ _ _ hxT).1
      obtain ⟨xi, xj, xv⟩ := x
      simp only at hx1 hxe hxL
      subst hx1
      subst hxe
      rw [← hxL.2.2]
      exact hxT
    · rw [keptIdx, glsOf_getD_ge svd_s k cutoff i (le_of_not_lt hi)] at h
      simp at h
  · intro h
    have hL := (mem_ssTrunc_imp _ _ _ _ h).1
    have hi : i < svd_s.length := ((mem_ssList svd_s _).mp hL).1
    rw [keptIdx_eq svd_s k cutoff i j hi]
    have hj : j ∈ ((ssKept svd_s k cutoff).filter
        (fun x => x.1 == i)).map (fun x => x.2.1) :=
      List.mem_map.mpr ⟨(i, j, (svd_s.getD i []).getD j 0),
        List.mem_filter.mpr ⟨(List.mem_insertionSort _).mpr h, by simp⟩, rfl⟩
    simpa using hj

/-- In a descending-sorted list with pairwise-distinct values, an element
lies in the first `k` entries exactly when fewer than `k` elements have a
strictly larger value. -/
theorem mem_take_sorted {R : Type} [LinearOrderedCommRing R] :
    ∀ (s : List (SVTriple R)), s.Pairwise svDesc →
      s.Pairwise (fun a b => a.2.2 ≠ b.2.2) →
      ∀ (k : ℕ) (x : SVTriple R),
        (x ∈ s.take k ↔
          x ∈ s ∧ s.countP (fun y => decide (x.2.2 < y.2.2)) < k) := by
  intro s
  induction s with
  | nil => intro _ _ k x; simp
  | cons a t ih =>
    intro hs hd k x
    rcases List.pairwise_cons.mp hs with ⟨hsa, hst⟩
    rcases List.pairwise_cons.mp hd with ⟨hda, hdt⟩
    cases k with
    | zero => simp
    | succ k =>
      rw [List.take_succ_cons]
      by_cases hx : x = a
      · subst hx
        constructor
        · intro _
          refine ⟨List.mem_cons_self x t, ?_⟩
          rw [List.countP_cons]
          have h0 : t.countP (fun y => decide (x.2.2 < y.2.2)) = 0 := by
            rw [List.countP_eq_zero]
            intro y hy
            simpa using not_lt_of_le (hsa y hy)
          rw [h0, if_neg (by simp)]
          exact Nat.succ_pos k
        · intro _
          exact List.mem_cons.mpr (Or.inl rfl)
      · have hmem : (x ∈ a :: t.take k) ↔ (x ∈ t.take k) := by
          simp [hx]
        rw [hmem, ih hst hdt k x]
        constructor
        · rintro ⟨hxt, hc⟩
          refine ⟨List.mem_cons_of_mem _ hxt, ?_⟩
          rw [List.countP_cons]
          by_cases hpa : x.2.2 < a.2.2
          · rw [if_pos (by simpa using hpa)]
            omega
          · rw [if_neg (by simpa using hpa)]
            omega
        · rintro ⟨hxm, hc⟩
          have hxt : x ∈ t := by
            rcases List.mem_cons.mp hxm with he | hh
            · exact absurd he hx
            · exact hh
          refine ⟨hxt, ?_⟩
          have hpa : x.2.2 < a.2.2 :=
            lt_of_le_of_ne (hsa x hxt) (Ne.symm (hda x hxt))
          rw [List.countP_cons, if_pos (by simpa using hpa)] at hc
          omega

/-- The filtered descending sort is sorted. -/
theorem stSorted {R : Type} [LinearOrderedCommRing R]
    (svd_s : List (List R)) (cutoff : R) :
    ((List.insertionSort svDesc (ssList svd_s)).filter
      (fun y => cutoff ≤ y.2.2)).Pairwise svDesc :=
  List.Pairwise.sublist (List.filter_sublist _)
    (List.sorted_insertionSort svDesc (ssList svd_s))

/-- Distinct values survive sorting and filtering. -/
theorem stDistinct {R : Type} [LinearOrderedCommRing R]
    (svd_s : List (List R)) (cutoff : R)
    (hdist : (ssList svd_s).Pairwise (fun a b => a.2.2 ≠ b.2.2)) :
    ((List.insertionSort svDesc (ssList svd_s)).filter
      (fun y => cutoff ≤ y.2.2)).Pairwise (fun a b => a.2.2 ≠ b.2.2) := by
  have h1 : (List.insertionSort svDesc (ssList svd_s)).Pairwise
      (fun a b => a.2.2 ≠ b.2.2) :=
    ((List.perm_insertionSort svDesc (ssList svd_s)).pairwise_iff
      (fun hab => Ne.symm hab)).mpr hdist
  exact List.Pairwise.sublist (List.filter_sublist _) h1

/-- For a nonnegative bound `k`, `ss_trunc` is the `k`-prefix of the
cutoff-filtered descending sort. -/
theorem ssTrunc_nat {R : Type} [LinearOrderedCommRing R]
    (svd_s : List (List R)) (k : ℕ) (cutoff : R) :
    ssTrunc svd_s (k : ℤ) cutoff =
      ((List.insertionSort svDesc (ssList svd_s)).filter
        (fun y => cutoff ≤ y.2.2)).take k := by
  rw [ssTrunc, if_neg (by omega), pySlice, if_pos (Int.natCast_nonneg k)]
  rw [Int.toNat_natCast]

/-- Above the cutoff, counting strictly larger entries in the filtered sort
counts them in the full enumeration. -/
theorem st_countP {R : Type} [LinearOrderedCommRing R]
    (svd_s : List (List R)) (cutoff : R) (x : SVTriple R)
    (hcut : cutoff ≤ x.2.2) :
    ((List.insertionSort svDesc (ssList svd_s)).filter
      (fun y => cutoff ≤ y.2.2)).countP (fun y => decide (x.2.2 < y.2.2)) =
    (ssList svd_s).countP (fun y => decide (x.2.2 < y.2.2)) := by
  rw [List.countP_filter]
  rw [(List.perm_insertionSort svDesc (ssList svd_s)).countP_eq]
  congr 1
  funext y
  by_cases hy : x.2.2 < y.2.2
  · simp [hy, le_trans hcut (le_of_lt hy)]
  · simp [hy]

/-- Characterization of the kept entries for a nonnegative bound `k`: an
enumerated entry is kept iff its value clears the cutoff and fewer than `k`
entries (across all groups) have a strictly larger value. -/
theorem keptIdx_char_nat {R : Type} [LinearOrderedCommRing R]
    (svd_s : List (List R)) (k : ℕ) (cutoff : R)
    (hdist : (ssList svd_s).Pairwise (fun a b => a.2.2 ≠ b.2.2))
    (x : SVTriple R) (hx : x ∈ ssList svd_s) :
    keptIdx svd_s (k : ℤ) cutoff x.1 x.2.1 = true ↔
      (cutoff ≤ x.2.2 ∧
        (ssList svd_s).countP (fun y => decide (x.2.2 < y.2.2)) < k) := by
  obtain ⟨i, j, v⟩ := x
  have hv : v = (svd_s.getD i []).getD j 0 := ((mem_ssList _ _).mp hx).2.2
  rw [keptIdx_iff, ← hv, ssTrunc_nat]
  rw [mem_take_sorted _ (stSorted svd_s cutoff) (stDistinct svd_s cutoff hdist)
    k (i, j, v)]
  constructor
  · rintro ⟨hmem, hcnt⟩
    have hcut : cutoff ≤ v := by simpa using (List.mem_filter.mp hmem).2
    refine ⟨hcut, ?_⟩
    rw [← st_countP svd_s cutoff (i, j, v) hcut]
    exact hcnt
  · rintro ⟨hcut, hcnt⟩
    refine ⟨List.mem_filter.mpr
      ⟨(List.mem_insertionSort _).mpr hx, by simpa using hcut⟩, ?_⟩
    rw [st_countP svd_s cutoff (i, j, v) hcut]
    exact hcnt

/-- Characterization of the kept entries when `k = -1`: only the cutoff
applies. -/
theorem keptIdx_char_neg1 {R : Type} [LinearOrderedCommRing R]
    (svd_s : List (List R)) (cutoff : R)
    (x : SVTriple R) (hx : x ∈ ssList svd_s) :
    keptIdx svd_s (-1) cutoff x.1 x.2.1 = true ↔ cutoff ≤ x.2.2 := by
  obtain ⟨i, j, v⟩ := x
  have hv : v = (svd_s.getD i []).getD j 0 := ((mem_ssList _ _).mp hx).2.2
  rw [keptIdx_iff, ← hv, ssTrunc, if_pos rfl]
  constructor
  · intro h
    simpa using (List.mem_filter.mp h).2
  · intro h
    exact List.mem_filter.mpr
      ⟨(List.mem_insertionSort _).mpr hx, by simpa using h⟩

/-- Summing a mapped filter over a `flatMap`, group by group. -/
theorem sum_filter_flatMap {α β R : Type} [LinearOrderedCommRing R]
    (l : List α) (f : α → List β) (p : β → Bool) (g : β → R) :
    (((l.flatMap f).filter p).map g).sum =
      (l.map (fun a => (((f a).filter p).map g).sum)).sum := by
  induction l with
  | nil => rfl
  | cons a t ih => simp [List.flatMap_cons, List.filter_append, ih]

/-- Summing a function of the entries of a list equals summing over its
index enumeration. -/
theorem sum_map_range_getD {R : Type} [LinearOrderedCommRing R]
    (ps : List R) (g : R → R) :
    ((List.range ps.length).map (fun j => g (ps.getD j 0))).sum =
      (ps.map g).sum := by
  induction ps with
  | nil => rfl
  | cons v ps ih =>
    rw [List.length_cons, List.range_succ_eq_map, List.map_cons, List.map_map]
    rw [List.map_cons, List.sum_cons, List.sum_cons]
    rw [show ((fun j => g ((v :: ps).getD j 0)) ∘ Nat.succ) =
      (fun j => g (ps.getD j 0)) from funext (fun j => by
        simp [List.getD_cons_succ])]
    rw [ih]
    simp [List.getD_cons_zero]

/-- The error accumulator of `truncate_singular_values` is the sum of the
squares of exactly the discarded enumerated entries — over every group,
including groups discarded entirely. -/
theorem truncErrorSq_eq_filter {R : Type} [LinearOrderedCommRing R]
    (svd_s : List (List R)) (k : ℤ) (cutoff : R) :
    truncErrorSq svd_s k cutoff =
      (((ssList svd_s).filter
        (fun e => !(keptIdx svd_s k cutoff e.1 e.2.1))).map
          (fun e => e.2.2 ^ 2)).sum := by
  rw [show ssList svd_s = (List.range svd_s.length).flatMap (fun i =>
    (List.range (svd_s.getD i []).length).map
      (fun j => (i, j, (svd_s.getD i []).getD j 0))) from rfl]
  rw [sum_filter_flatMap]
  rw [truncErrorSq]
  apply congrArg List.sum
  apply List.map_congr_left
  intro i hi
  rw [List.mem_range] at hi
  simp only
  rw [List.filter_map, List.map_map]
  cases hg : (glsOf svd_s k cutoff).getD i none with
  | some gl =>
    have hk : ∀ j, keptIdx svd_s k cutoff i j = gl.contains j := fun j => by
      rw [keptIdx, hg]
    rw [List.filter_congr (q := fun j => !(gl.contains j)) (fun j _ => by
      show (!(keptIdx svd_s k cutoff i j)) = _
      rw [hk])]
    apply congrArg List.sum
    apply List.map_congr_left
    intro j _
    rfl
  | none =>
    have hk : ∀ j, keptIdx svd_s k cutoff i j = false := fun j => by
      rw [keptIdx, hg]
    rw [List.filter_congr (q := fun _ => true) (fun j _ => by
      show (!(keptIdx svd_s k cutoff i j)) = _
      rw [hk]
      rfl)]
    rw [List.filter_true]
    exact (sum_map_range_getD (svd_s.getD i []) (fun v => v ^ 2)).symm

/-- Summing a nonnegative map over a filter is monotone in the predicate. -/
theorem sum_filter_le_of_imp {α R : Type} [LinearOrderedCommRing R]
    (l : List α) (p q : α → Bool) (g : α → R)
    (hg : ∀ x ∈ l, 0 ≤ g x)
    (him : ∀ x ∈ l, p x = true → q x = true) :
    ((l.filter p).map g).sum ≤ ((l.filter q).map g).sum := by
  induction l with
  | nil => exact le_refl _
  | cons a t ih =>
    have iht := ih (fun x hx => hg x (List.mem_cons_of_mem a hx))
      (fun x hx => him x (List.mem_cons_of_mem a hx))
    have hga := hg a (List.mem_cons_self a t)
    rw [List.filter_cons, List.filter_cons]
    by_cases hp : p a = true
    · rw [if_pos hp, if_pos (him a (List.mem_cons_self a t) hp)]
      rw [List.map_cons, List.sum_cons, List.map_cons, List.sum_cons]
      exact add_le_add_left iht _
    · rw [if_neg hp]
      by_cases hq : q a = true
      · rw [if_pos hq, List.map_cons, List.sum_cons]
        calc ((t.filter p).map g).sum ≤ ((t.filter q).map g).sum := iht
          _ ≤ g a + ((t.filter q).map g).sum := le_add_of_nonneg_left hga
      · rw [if_neg hq]
        exact iht

/-- Enlarging the cardinality bound keeps every previously kept entry. -/
theorem keptIdx_mono {R : Type} [LinearOrderedCommRing R]
    (svd_s : List (List R)) (cutoff : R) (k1 k2 : ℕ) (hk : k1 ≤ k2)
    (i j : ℕ) (h : keptIdx svd_s (k1 : ℤ) cutoff i j = true) :
    keptIdx svd_s (k2 : ℤ) cutoff i j = true := by
  rw [keptIdx_iff] at h ⊢
  rw [ssTrunc_nat] at h ⊢
  have heq : ((List.insertionSort svDesc (ssList svd_s)).filter
      (fun y => cutoff ≤ y.2.2)).take k1 =
      (((List.insertionSort svDesc (ssList svd_s)).filter
        (fun y => cutoff ≤ y.2.2)).take k2).take k1 := by
    rw [List.take_take, Nat.min_eq_left hk]
  rw [heq] at h
  exact List.take_subset _ _ h

/-- The error accumulator is antitone in the cardinality bound. -/
theorem truncErrorSq_anti {R : Type} [LinearOrderedCommRing R]
    (svd_s : List (List R)) (cutoff : R) (k1 k2 : ℕ) (hk : k1 ≤ k2) :
    truncErrorSq svd_s (k2 : ℤ) cutoff ≤ truncErrorSq svd_s (k1 : ℤ) cutoff := by
  rw [truncErrorSq_eq_filter, truncErrorSq_eq_filter]
  apply sum_filter_le_of_imp
  · intro x _
    exact sq_nonneg _
  · intro x _ hx
    simp only [Bool.not_eq_true'] at hx ⊢
    cases hb : keptIdx svd_s (k1 : ℤ) cutoff x.1 x.2.1
    · rfl
    · rw [keptIdx_mono svd_s cutoff k1 k2 hk x.1 x.2.1 hb] at hx
      simp at hx

/-- C1: `truncate_singular_values` keeps exactly those enumerated
`(group, index, value)` entries whose value clears the cutoff and (for a
nonnegative bound `k`, here with pairwise-distinct values so that the global
top-`k` set is well defined) among which fewer than `k` entries across all
groups are strictly larger; `k = -1` imposes no cardinality bound; the error
accumulator is the sum of squares of every discarded entry over every group,
including groups discarded entirely, and the returned error is its square
root; in particular on groups `[5,3,1]` and `[4,2]` with `k = 3`,
`cutoff = 0` the kept values are `5, 3` of group 0 and `4` of group 1 and
the error is `√5`. -/
theorem C1_truncate_policy {R : Type} [LinearOrderedCommRing R] :
    (∀ (svd_s : List (List R)) (k : ℕ) (cutoff : R),
        (ssList svd_s).Pairwise (fun a b => a.2.2 ≠ b.2.2) →
        ∀ x ∈ ssList svd_s,
          (keptIdx svd_s (k : ℤ) cutoff x.1 x.2.1 = true ↔
            (cutoff ≤ x.2.2 ∧
              (ssList svd_s).countP (fun y => decide (x.2.2 < y.2.2)) < k))) ∧
    (∀ (svd_s : List (List R)) (cutoff : R), ∀ x ∈ ssList svd_s,
        (keptIdx svd_s (-1) cutoff x.1 x.2.1 = true ↔ cutoff ≤ x.2.2)) ∧
    (∀ (svd_s : List (List R)) (k : ℤ) (cutoff : R),
        truncErrorSq svd_s k cutoff =
          (((ssList svd_s).filter
            (fun e => !(keptIdx svd_s k cutoff e.1 e.2.1))).map
              (fun e => e.2.2 ^ 2)).sum) ∧
    (truncate_singular_values ([[5, 3, 1], [4, 2]] : List (List ℚ)) 3 0 =
        ([some [5, 3], some [4]], [some [0, 1], some [0]], 5) ∧
      truncError [[5, 3, 1], [4, 2]] 3 0 = Real.sqrt 5) := by
  have herr : truncErrorSq ([[5, 3, 1], [4, 2]] : List (List ℚ)) 3 0 = 5 := by
    rw [truncErrorSq_eq_filter]
    rw [show (ssList ([[5, 3, 1], [4, 2]] : List (List ℚ))).filter
        (fun e => !(keptIdx ([[5, 3, 1], [4, 2]] : List (List ℚ)) 3 0
          e.1 e.2.1)) =
        ([(0, 2, 1), (1, 1, 2)] : List (SVTriple ℚ)) from by decide]
    norm_num
  refine ⟨fun svd_s k cutoff hdist x hx =>
      keptIdx_char_nat svd_s k cutoff hdist x hx,
    fun svd_s cutoff x hx => keptIdx_char_neg1 svd_s cutoff x hx,
    fun svd_s k cutoff => truncErrorSq_eq_filter svd_s k cutoff, ?_, ?_⟩
  · rw [truncate_singular_values]
    rw [show svdROf ([[5, 3, 1], [4, 2]] : List (List ℚ)) 3 0 =
      [some [5, 3], some [4]] from by decide]
    rw [show glsOf ([[5, 3, 1], [4, 2]] : List (List ℚ)) 3 0 =
      [some [0, 1], some [0]] from by decide]
    rw [herr]
  · rw [truncError, herr]
    norm_num

/-- Witness for C1 at the spec's example (over `ℤ`): the entry `(0, 0, 5)`
is kept under `k = 3`, `cutoff = 0` because it clears the cutoff and no
entry is larger. -/
theorem C1_truncate_policy_witness :
    ((ssList ([[5, 3, 1], [4, 2]] : List (List ℤ))).Pairwise
        (fun a b => a.2.2 ≠ b.2.2)) ∧
    ((0, 0, (5 : ℤ)) ∈ ssList ([[5, 3, 1], [4, 2]] : List (List ℤ))) ∧
    (keptIdx ([[5, 3, 1], [4, 2]] : List (List ℤ)) ((3 : ℕ) : ℤ) 0 0 0
        = true ↔
      ((0 : ℤ) ≤ 5 ∧
        (ssList ([[5, 3, 1], [4, 2]] : List (List ℤ))).countP
          (fun y => decide ((5 : ℤ) < y.2.2)) < 3)) :=
  ⟨by decide, by decide,
   (C1_truncate_policy (R := ℤ)).1 [[5, 3, 1], [4, 2]] 3 0 (by decide)
     (0, 0, 5) (by decide)⟩

/-- C4: for a fixed list of (nonnegative) singular-value arrays with
`cutoff = 0`, the returned truncation error is monotonically non-increasing
in `k` — decreasing `k` never decreases the error — and with `k = -1` and
`cutoff = 0` the returned error is exactly `0`. -/
theorem C4_error_monotone (svd_s : List (List ℚ))
    (hpos : ∀ ps ∈ svd_s, ∀ v ∈ ps, (0 : ℚ) ≤ v) :
    (∀ k1 k2 : ℕ, k1 ≤ k2 →
        truncError svd_s (k2 : ℤ) 0 ≤ truncError svd_s (k1 : ℤ) 0) ∧
    truncError svd_s (-1) 0 = 0 := by
  constructor
  · intro k1 k2 hk
    rw [truncError, truncError]
    exact Real.sqrt_le_sqrt
      (Rat.cast_le.mpr (truncErrorSq_anti svd_s 0 k1 k2 hk))
  · have hall : ∀ e ∈ ssList svd_s,
        keptIdx svd_s (-1) (0 : ℚ) e.1 e.2.1 = true := by
      intro e he
      rw [keptIdx_char_neg1 svd_s 0 e he]
      obtain ⟨hi, hj, hv⟩ := (mem_ssList svd_s e).mp he
      rw [hv]
      have hps : svd_s.getD e.1 [] ∈ svd_s := by
        rw [List.getD_eq_getElem svd_s [] hi]
        exact List.getElem_mem hi
      apply hpos _ hps
      rw [List.getD_eq_getElem _ 0 hj]
      exact List.getElem_mem hj
    have h0 : truncErrorSq svd_s (-1 : ℤ) (0 : ℚ) = 0 := by
      rw [truncErrorSq_eq_filter]
      rw [List.filter_eq_nil_iff.mpr (fun e he => by simp [hall e he])]
      rfl
    rw [truncError, h0]
    simp

/-- Witness for C4 at the concrete singular-value arrays `[[4, 2]]`. -/
theorem C4_error_monotone_witness :
    (∀ ps ∈ ([[4, 2]] : List (List ℚ)), ∀ v ∈ ps, (0 : ℚ) ≤ v) ∧
    truncError [[4, 2]] ((2 : ℕ) : ℤ) 0 ≤ truncError [[4, 2]] ((1 : ℕ) : ℤ) 0 ∧
    truncError [[4, 2]] (-1) 0 = 0 :=
  ⟨by decide, (C4_error_monotone [[4, 2]] (by decide)).1 1 2 (by decide),
   (C4_error_monotone [[4, 2]] (by decide)).2⟩
